import Mathlib

/-!
Verification of the mod-release-workflow repository.

The repository's three Python source files are shallowly embedded here:

* `scripts/mods_toml.py` — validation of the `[mc-publish]` table (namespace `ModsToml`);
* `setup.py` — line-oriented locate/rewrite of the `[mc-publish]` fragment (namespace `Setup`);
* `scripts/sync_mod.py` — the bounded packwiz retry loop (namespace `SyncMod`).

Text is modelled as `List Char` (`Chars`).  Python string primitives used by the
sources (`splitlines`, `strip`, `split(sep, 1)[0]`, `in`, `isdigit`, `replace`,
`lower`, `join`) are given executable models below.  `splitlines` is modelled
with the standard line-break characters Python recognises (`\n`, `\r`, `\r\n`,
`\x0b`, `\x0c`, `\x1c`, `\x1d`, `\x1e`, `\x85`, `U+2028`, `U+2029`); `strip`
with Python's whitespace set restricted to these plus space, tab, `\x1f` and
`\xa0` (the rare Unicode space characters are not modelled, and none of the
theorems below depends on them).
-/

abbrev Chars := List Char

/-- Line-break characters recognised by Python's `str.splitlines`. -/
def isLineBreak (c : Char) : Bool :=
  c = '\n' || c = '\r' || c = '\x0b' || c = '\x0c' || c = '\x1c' ||
  c = '\x1d' || c = '\x1e' || c = '\x85' || c = '\u2028' || c = '\u2029'

/-- Whitespace characters stripped by Python's `str.strip` (see module comment). -/
def isPySpace (c : Char) : Bool :=
  isLineBreak c || c = ' ' || c = '\t' || c = '\x1f' || c = '\xa0'

/-- Model of Python `s.strip()`: drop whitespace from both ends. -/
def pyStrip (s : Chars) : Chars :=
  ((s.dropWhile isPySpace).reverse.dropWhile isPySpace).reverse

/-- Model of Python `s.split(stop, 1)[0]`: the prefix before the first `stop`. -/
def takeUntil (stop : Char) : Chars → Chars
  | [] => []
  | c :: cs => if c = stop then [] else c :: takeUntil stop cs

/-- Prepend a character to the first line of a line list (the character is a
fresh final line when there is none). -/
def consLine (c : Char) : List Chars → List Chars
  | [] => [[c]]
  | l :: ls => (c :: l) :: ls

/-- Worker for `pySL`; the flag records whether the previous character was a
`\r` (so that a following `\n` completes the same `\r\n` break instead of
opening a new one). -/
def pySLGo : Bool → Chars → List Chars
  | _, [] => []
  | prevCR, c :: rest =>
    if c = '\n' then
      if prevCR then pySLGo false rest
      else [] :: pySLGo false rest
    else if c = '\r' then [] :: pySLGo true rest
    else if isLineBreak c then [] :: pySLGo false rest
    else consLine c (pySLGo false rest)

/-- Model of Python `text.splitlines()` (keepends=False). -/
def pySL (t : Chars) : List Chars := pySLGo false t

/-- Worker for `pySLKeep`; the pending `\r` line is emitted once the
character after the `\r` is known (`\r\n` stays one line). -/
def pySLKeepGo : Bool → Chars → List Chars
  | prevCR, [] => if prevCR then [['\r']] else []
  | prevCR, c :: rest =>
    if c = '\n' then
      if prevCR then ['\r', '\n'] :: pySLKeepGo false rest
      else ['\n'] :: pySLKeepGo false rest
    else
      let tail :=
        if c = '\r' then pySLKeepGo true rest
        else if isLineBreak c then [c] :: pySLKeepGo false rest
        else consLine c (pySLKeepGo false rest)
      if prevCR then ['\r'] :: tail else tail

/-- Model of Python `text.splitlines(keepends=True)`: each line keeps its terminator. -/
def pySLKeep (t : Chars) : List Chars := pySLKeepGo false t

/-- Model of Python `sep.join(parts)`. -/
def joinSep (sep : Chars) : List Chars → Chars
  | [] => []
  | [x] => x
  | x :: rest => x ++ sep ++ joinSep sep rest

/-- Model of the sources' serialisation `"\n".join(lines) + "\n"`. -/
def joinNL (ls : List Chars) : Chars :=
  joinSep ['\n'] ls ++ ['\n']

/-- Terminator-per-line serialisation; equals `joinNL` on non-empty line lists. -/
def joinLines (ls : List Chars) : Chars :=
  (ls.map (fun l => l ++ ['\n'])).flatten

/-- Boolean list-prefix test (model of Python `s.startswith(pre)`). -/
def isPrefixC : Chars → Chars → Bool
  | [], _ => true
  | _ :: _, [] => false
  | c :: cs, d :: ds => if c = d then isPrefixC cs ds else false

/-- Boolean list-suffix test (model of Python `s.endswith(suf)`). -/
def isSuffixC (suf s : Chars) : Bool :=
  isPrefixC suf.reverse s.reverse

/-- Model of Python `needle in haystack` (substring containment). -/
def containsSub (needle : Chars) : Chars → Bool
  | [] => needle.isEmpty
  | c :: cs => isPrefixC needle (c :: cs) || containsSub needle cs

/-- Model of Python `s.isdigit()` restricted to ASCII digits. -/
def pyIsDigit (s : Chars) : Bool :=
  !s.isEmpty && s.all Char.isDigit

/-- Model of Python `s.replace(old, new)` for a single-character `old`. -/
def replaceChar (old : Char) (new : Chars) : Chars → Chars
  | [] => []
  | c :: cs => (if c = old then new else [c]) ++ replaceChar old new cs

/-- Model of Python `s.lower()` (ASCII case folding). -/
def pyLower (s : Chars) : Chars :=
  s.map Char.toLower

/-! ### Shared line helpers

`strip_inline_comment`, `is_table_header` and `is_mc_publish_header` are
defined identically in `scripts/mods_toml.py` and `setup.py`; they are
embedded once here. -/

/-- Source `strip_inline_comment`: `line.split("#", 1)[0].strip()`. -/
def strip_inline_comment (line : Chars) : Chars :=
  pyStrip (takeUntil '#' line)

/-- Source `is_table_header`: the comment-stripped line starts with `[` and ends with `]`. -/
def is_table_header (line : Chars) : Bool :=
  let stripped := strip_inline_comment line
  isPrefixC "[".data stripped && isSuffixC "]".data stripped

/-- Source `is_mc_publish_header`: the comment-stripped line starts with
`[mc-publish` or `[[mc-publish`. -/
def is_mc_publish_header (line : Chars) : Bool :=
  let stripped := strip_inline_comment line
  isPrefixC "[mc-publish".data stripped || isPrefixC "[[mc-publish".data stripped

/-- A line at which a `[mc-publish]` fragment ends: a table header that is not
a continuation of the `mc-publish` table (the loop condition of
`extract_mc_publish_block` and `update_mc_publish_block`). -/
def isBoundary (line : Chars) : Bool :=
  is_table_header line && !is_mc_publish_header line

/-- An owner-header line: its comment-stripped text equals `[mc-publish]`
exactly (the membership test of the sources' `header_indices` comprehension). -/
def isOwnerHeader (line : Chars) : Bool :=
  strip_inline_comment line = "[mc-publish]".data

/-- Indices of owner-header lines starting the count at `i` (model of the
sources' `[index for index, line in enumerate(lines) if ...]`). -/
def headerIndicesFrom (i : Nat) : List Chars → List Nat
  | [] => []
  | l :: rest =>
    if isOwnerHeader l then i :: headerIndicesFrom (i + 1) rest
    else headerIndicesFrom (i + 1) rest

/-- Source `header_indices`. -/
def headerIndices (lines : List Chars) : List Nat :=
  headerIndicesFrom 0 lines

/-- Number of lines skipped before the first boundary header (the sources'
`for index in range(start_index + 1, len(lines))` search); equals the list
length when no boundary exists, so `start + 1 + boundaryOffset` is the
sources' `end_index`. -/
def boundaryOffset : List Chars → Nat
  | [] => 0
  | l :: rest => if isBoundary l then 0 else boundaryOffset rest + 1

/-- Index of the first owner-header line, if any (the search loop at the top
of `setup.py`'s `update_mc_publish_block`). -/
def firstOwnerIdx? : List Chars → Option Nat
  | [] => none
  | l :: rest =>
    if isOwnerHeader l then some 0 else (firstOwnerIdx? rest).map (· + 1)

namespace ModsToml

/-- Source `scripts/mods_toml.py` `extract_mc_publish_block`: returns the text
of the `[mc-publish]` block; `fail`s (modelled as `Except.error` with the
message passed to `fail`) when the table is missing or duplicated. -/
def extract_mc_publish_block (text : Chars) : Except Chars Chars :=
  let lines := pySL text
  match headerIndices lines with
  | [] => .error "Missing [mc-publish] table in mods.toml".data
  | [startIndex] =>
    let endIndex := startIndex + 1 + boundaryOffset (lines.drop (startIndex + 1))
    .ok (joinNL ((lines.drop startIndex).take (endIndex - startIndex)))
  | _ => .error "Multiple [mc-publish] tables found in mods.toml".data

/-- Scalar values produced by `tomllib` inside the `[mc-publish]` table, as far
as `normalize_value` distinguishes them: strings are stripped, any other
scalar is passed to `str`. -/
inductive TomlVal where
  | vStr (s : Chars)
  | vInt (n : Int)
  | vBool (b : Bool)
  deriving DecidableEq

/-- Python `str()` of a non-string scalar. -/
def pyStrVal : TomlVal → Chars
  | .vStr s => s
  | .vInt n => (toString n).data
  | .vBool b => (if b then "True" else "False").data

/-- Source `normalize_value`: `None` stays missing, strings are stripped and
empty means missing, other scalars are stringified. -/
def normalize_value : Option TomlVal → Option Chars
  | none => none
  | some (.vStr s) =>
    let stripped := pyStrip s
    if stripped.isEmpty then none else some stripped
  | some v => some (pyStrVal v)

/-- Source `REQUIRED_KEYS`. -/
def REQUIRED_KEYS : List Chars :=
  ["modrinth".data, "curseforge".data, "loader".data, "mc_version".data,
   "modrinth_slug".data, "curseforge_slug".data]

/-- Source `ALLOWED_LOADERS` (a one-element set). -/
def ALLOWED_LOADERS : List Chars := ["forge".data]

/-- The `fail` message for a value containing a template placeholder. -/
def placeholderMessage (key value : Chars) : Chars :=
  "[mc-publish].".data ++ key ++ " contains a template placeholder: ".data ++ value

/-- The `fail` message listing every missing required key (the `mods_toml`
path argument is fixed to the file name `mods.toml`). -/
def missingMessage (missing : List Chars) : Chars :=
  "Missing required keys in mods.toml: ".data ++
    joinSep ", ".data (missing.map (fun key => "[mc-publish].".data ++ key))

/-- The required-key loop of `read_metadata` (lines 100–109): walks
`REQUIRED_KEYS` in order collecting missing keys and present values, and
`fail`s immediately when a present value contains `${`. -/
def collectValues (keys : List Chars) (metadata : Chars → Option TomlVal) :
    Except Chars (List Chars × List (Chars × Chars))
  := match keys with
  | [] => .ok ([], [])
  | key :: rest =>
    match normalize_value (metadata key) with
    | none =>
      match collectValues rest metadata with
      | .error e => .error e
      | .ok (missing, values) => .ok (key :: missing, values)
    | some value =>
      if containsSub "$\x7b".data value then .error (placeholderMessage key value)
      else
        match collectValues rest metadata with
        | .error e => .error e
        | .ok (missing, values) => .ok (missing, (key, value) :: values)

/-- Association-list lookup with propositional key equality. -/
def alookup (k : Chars) : List (Chars × Chars) → Option Chars
  | [] => none
  | (k', v) :: rest => if k' = k then some v else alookup k rest

/-- Validation part of source `read_metadata` (lines 100–118): the decoded
`[mc-publish]` mapping is checked for missing keys, placeholders and the
loader allow-list.  File I/O, TOML decoding and the surrounding `fail`
plumbing are not modelled; `fail message` is `Except.error message`. -/
def read_metadata_validate (metadata : Chars → Option TomlVal) :
    Except Chars (List (Chars × Chars)) :=
  match collectValues REQUIRED_KEYS metadata with
  | .error e => .error e
  | .ok (missing, values) =>
    if !missing.isEmpty then .error (missingMessage missing)
    else
      match alookup "loader".data values with
      | none => .error "loader missing".data
      | some loader =>
        if loader ∈ ALLOWED_LOADERS then .ok values
        else
          .error ("[mc-publish].loader must be one of: forge. Found: ".data ++ loader)

end ModsToml

namespace Setup

/-- Source `setup.py` `format_toml_value`: the `curseforge` project ID is
emitted unquoted when it is all digits; every other value is quoted with
backslash and double-quote escaped. -/
def format_toml_value (name value : Chars) : Chars :=
  if name = "curseforge".data ∧ pyIsDigit value then value
  else
    '"' :: (replaceChar '"' ['\\', '"'] (replaceChar '\\' ['\\', '\\'] value) ++ ['"'])

/-- The `f"{key} = {format_toml_value(key, values[key])}"` line built by
`update_mc_publish_block` and `build_mc_publish_block`; a missing key would
raise `KeyError` in Python and is guarded against in
`update_mc_publish_block` below. -/
def mkKVLine (values : Chars → Option Chars) (key : Chars) : Chars :=
  key ++ " = ".data ++ format_toml_value key ((values key).getD [])

/-- Source `setup.py` `build_mc_publish_block`. -/
def build_mc_publish_block (values : Chars → Option Chars) (ordered : List Chars) :
    List Chars :=
  "[mc-publish]".data :: ordered.map (mkKVLine values)

/-- Source `setup.py` `extract_mc_publish_block`: like the `mods_toml.py`
version but returns `None` (here `Option.none`) when the table is absent;
`sys.exit(message)` is modelled as `Except.error message`. -/
def extract_mc_publish_block (text : Chars) : Except Chars (Option Chars) :=
  let lines := pySL text
  match headerIndices lines with
  | [] => .ok none
  | [startIndex] =>
    let endIndex := startIndex + 1 + boundaryOffset (lines.drop (startIndex + 1))
    .ok (some (joinNL ((lines.drop startIndex).take (endIndex - startIndex))))
  | _ => .error "ERROR: Multiple [mc-publish] tables found in mods.toml".data

/-- The key parsed out of a block line by `update_mc_publish_block`:
`stripped = strip_inline_comment(line)`, skip when `"=" not in stripped`,
else `stripped.split("=", 1)[0].strip()`. -/
def parsedKey (line : Chars) : Option Chars :=
  let stripped := strip_inline_comment line
  if stripped.contains '=' then some (pyStrip (takeUntil '=' stripped)) else none

/-- Association-list lookup for `key_indices`. -/
def lookupIdx (k : Chars) : List (Chars × Nat) → Option Nat
  | [] => none
  | (k', i) :: rest => if k' = k then some i else lookupIdx k rest

/-- The `key_indices` loop of `update_mc_publish_block`: first index of each
`key = value` line whose key is in `values`, scanning positions from `i`. -/
def buildKeyIndicesFrom (values : Chars → Option Chars) :
    List Chars → Nat → List (Chars × Nat) → List (Chars × Nat)
  | [], _, acc => acc
  | line :: rest, i, acc =>
    match parsedKey line with
    | none => buildKeyIndicesFrom values rest (i + 1) acc
    | some key =>
      if (values key).isSome ∧ (lookupIdx key acc).isNone then
        buildKeyIndicesFrom values rest (i + 1) (acc ++ [(key, i)])
      else buildKeyIndicesFrom values rest (i + 1) acc

/-- Source `key_indices` for a block body. -/
def buildKeyIndices (block : List Chars) (values : Chars → Option Chars) :
    List (Chars × Nat) :=
  buildKeyIndicesFrom values block 0 []

/-- The `for key in ordered_keys` loop of `update_mc_publish_block`: replace
the recorded line of a known key in place, append a fresh line otherwise. -/
def applyOrderedKeys (block : List Chars) (keyIndices : List (Chars × Nat))
    (values : Chars → Option Chars) (ordered : List Chars) : List Chars :=
  ordered.foldl
    (fun blk key =>
      match lookupIdx key keyIndices with
      | some i => blk.set i (mkKVLine values key)
      | none => blk ++ [mkKVLine values key])
    block

/-- Source `setup.py` `update_mc_publish_block`, as a pure function from the
file text to the rewritten text plus the changed flag (`True` means the file
is rewritten, `False` means the no-op case that skips the write).  The result
is `none` when some ordered key has no desired value, where Python would
raise `KeyError` before writing anything. -/
def update_mc_publish_block (text : Chars) (values : Chars → Option Chars)
    (ordered : List Chars) : Option (Chars × Bool) :=
  if ordered.any (fun key => (values key).isNone) then none
  else
    let lines := pySL text
    let newLines :=
      match firstOwnerIdx? lines with
      | some startIndex =>
        let endIndex := startIndex + 1 + boundaryOffset (lines.drop (startIndex + 1))
        let blockLines := (lines.drop (startIndex + 1)).take (endIndex - (startIndex + 1))
        let keyIndices := buildKeyIndices blockLines values
        let blockLines' := applyOrderedKeys blockLines keyIndices values ordered
        lines.take (startIndex + 1) ++ blockLines' ++ lines.drop endIndex
      | none =>
        let base :=
          if !lines.isEmpty ∧ !(pyStrip (lines.getLastD [])).isEmpty then lines ++ [[]]
          else lines
        base ++ build_mc_publish_block values ordered
    let newText := joinNL newLines
    some (newText, decide (newText ≠ text))

/-- The fragment located by `update_mc_publish_block`'s search loops: the
first owner-header index and the owned half-open line range's end. -/
def locateFragment (text : Chars) : Option (Nat × Nat) :=
  let lines := pySL text
  match firstOwnerIdx? lines with
  | some startIndex =>
    some (startIndex, startIndex + 1 + boundaryOffset (lines.drop (startIndex + 1)))
  | none => none

end Setup

namespace SyncMod

/-- Result of the HTTP query made by `check_modrinth_version`: a raised
exception, or a response with a status code and the `version_number` fields
of the decoded version records. -/
abbrev QueryResult := Except Unit (Nat × List Chars)

/-- Source `scripts/sync_mod.py` `check_modrinth_version`: `True` only when
the query succeeds with status 200 and some record's `version_number`
contains `version`; an exception or a non-200 status yields `False`. -/
def check_modrinth_version (version : Chars) (query : QueryResult) : Bool :=
  match query with
  | .error _ => false
  | .ok (status, versions) =>
    if status = 200 then versions.any (fun v => containsSub version v) else false

/-- One attempt's environment: the Modrinth query result, the packwiz
invocation result `(success, stdout+stderr)`, and the `git diff` probe, each
as a function of the attempt number. -/
structure SyncEnv where
  query : Nat → QueryResult
  packwiz : Nat → Bool × Chars
  gitChanges : Nat → Bool

/-- Per-attempt outcome of the `sync_mod` retry loop body (the spec's
`SyncAttempt`): `apiSkip` is the Modrinth pre-check skip (`continue` before
packwiz runs), `toolNotFound` the not-found tool failure, `toolError` any
other tool failure, `noChange` a successful exit without git changes and
`converged` the successful return.  The external tool is invoked on an
attempt exactly when its outcome is not `apiSkip`. -/
inductive AttemptOutcome where
  | apiSkip
  | toolNotFound
  | toolError
  | noChange
  | converged
  deriving DecidableEq

/-- Source `MAX_RETRIES`. -/
def MAX_RETRIES : Nat := 20

/-- The body of `sync_mod`'s `for attempt in range(1, MAX_RETRIES + 1)` loop
for attempt number `a` (sleeps, logging and the `GITHUB_OUTPUT` write are not
modelled; the packwiz command string depends only on the fixed `action`, so
the tool's behaviour is already captured by `env.packwiz`). -/
def attemptOutcome (platform version : Chars) (env : SyncEnv) (a : Nat) :
    AttemptOutcome :=
  if platform = "mr".data ∧ 1 < a ∧ !check_modrinth_version version (env.query a) then
    .apiSkip
  else
    let (success, output) := env.packwiz a
    if !success then
      if containsSub "could not find".data (pyLower output) ||
          containsSub "no results".data (pyLower output) then .toolNotFound
      else .toolError
    else if env.gitChanges a then .converged
    else .noChange

/-- Outcomes of the performed attempts, starting at attempt `a` with `fuel`
attempts left; the loop stops early exactly when an attempt converges. -/
def sync_attempts (platform version : Chars) (env : SyncEnv) :
    Nat → Nat → List AttemptOutcome
  | _, 0 => []
  | a, fuel + 1 =>
    let o := attemptOutcome platform version env a
    if o = .converged then [o]
    else o :: sync_attempts platform version env (a + 1) fuel

/-- Return value of the retry loop: `true` iff some attempt converges before
the budget runs out. -/
def sync_loop (platform version : Chars) (env : SyncEnv) : Nat → Nat → Bool
  | _, 0 => false
  | a, fuel + 1 =>
    if attemptOutcome platform version env a = .converged then true
    else sync_loop platform version env (a + 1) fuel

/-- Source `sync_mod`'s loop with the source's fixed budget. -/
def sync_mod (platform version : Chars) (env : SyncEnv) : Bool :=
  sync_loop platform version env 1 MAX_RETRIES

end SyncMod

/-! ### Claim-side definitions and concrete inputs -/

/-- Character-wise TOML string escaping; shown below to agree with the
source's two sequential `replace` calls. -/
def escapeTomlChar (c : Char) : Chars :=
  if c = '\\' then ['\\', '\\'] else if c = '"' then ['\\', '"'] else [c]

/-- Number of leading lines not satisfying `p` (length of the list when none
does). -/
def offsetUntil (p : Chars → Bool) : List Chars → Nat
  | [] => 0
  | l :: rest => if p l then 0 else offsetUntil p rest + 1

/-- The fragment-end boundary predicate as claim C5 words it: a table-header
line whose comment-stripped text is neither `[mc-publish]` exactly nor begins
with `[[mc-publish`.  Stated from the claim's words for comparison with the
source's `is_table_header line && !is_mc_publish_header line` boundary. -/
def claimBoundaryC5 (line : Chars) : Bool :=
  is_table_header line &&
    !(decide (strip_inline_comment line = "[mc-publish]".data)) &&
    !(isPrefixC "[[mc-publish".data (strip_inline_comment line))

/-- Fragment end according to claim C5's boundary predicate. -/
def claimFragmentEndC5 (lines : List Chars) (startIndex : Nat) : Nat :=
  startIndex + 1 + offsetUntil claimBoundaryC5 (lines.drop (startIndex + 1))

/-- Environment whose Modrinth query raises on every attempt while packwiz
always succeeds with changes present. -/
def envQueryFail : SyncMod.SyncEnv :=
  ⟨fun _ => .error (), fun _ => (true, []), fun _ => true⟩

/-- Environment whose Modrinth query returns a non-200 response on every
attempt. -/
def envQuery500 : SyncMod.SyncEnv :=
  ⟨fun _ => .ok (500, []), fun _ => (true, []), fun _ => true⟩

/-- Environment where the tool always reports success but the working tree
never shows changes (claim C6's scenario). -/
def envNoChange : SyncMod.SyncEnv :=
  ⟨fun _ => .ok (200, ["1.0".data]), fun _ => (true, []), fun _ => false⟩

/-- Metadata mapping with two required keys missing (`curseforge` and
`mc_version`) and no placeholder in any present value. -/
def mdMissingTwo : Chars → Option ModsToml.TomlVal := fun k =>
  if k = "modrinth".data then some (.vStr "abc".data)
  else if k = "loader".data then some (.vStr "forge".data)
  else if k = "modrinth_slug".data then some (.vStr "slug-a".data)
  else if k = "curseforge_slug".data then some (.vStr "slug-b".data)
  else none

/-- Metadata mapping where both `modrinth` and `curseforge` contain an
unresolved placeholder. -/
def mdTwoPlaceholders : Chars → Option ModsToml.TomlVal := fun k =>
  if k = "modrinth".data then some (.vStr "${A}".data)
  else if k = "curseforge".data then some (.vStr "${B}".data)
  else if k = "loader".data then some (.vStr "forge".data)
  else if k = "mc_version".data then some (.vStr "1.20.1".data)
  else if k = "modrinth_slug".data then some (.vStr "s".data)
  else if k = "curseforge_slug".data then some (.vStr "s".data)
  else none

/-- Metadata mapping whose only placeholder offender is `mc_version`. -/
def mdOnePlaceholder : Chars → Option ModsToml.TomlVal := fun k =>
  if k = "modrinth".data then some (.vStr "abc".data)
  else if k = "curseforge".data then some (.vInt 123)
  else if k = "loader".data then some (.vStr "forge".data)
  else if k = "mc_version".data then some (.vStr "${MC}".data)
  else if k = "modrinth_slug".data then some (.vStr "s".data)
  else if k = "curseforge_slug".data then some (.vStr "s".data)
  else none

/-- Desired values used by several concrete rewrite examples. -/
def valsModrinth : Chars → Option Chars := fun k =>
  if k = "modrinth".data then some "x".data else none

/-- Desired values containing a newline (claim C3's counterexample). -/
def valsNewline : Chars → Option Chars := fun k =>
  if k = "k".data then some "a\nb".data else none

/-- Desired values whose key contains an equals sign (claim C3's
counterexample). -/
def valsEqKey : Chars → Option Chars := fun k =>
  if k = "a=b".data then some "v".data else none

/-- Desired values used by claim C10's witness. -/
def valsDup : Chars → Option Chars := fun k =>
  if k = "modrinth".data then some "z".data else none

/-- Document with one owner header, a `[mc-publish.settings]` continuation
header and an unrelated `[other]` header (claim C5's counterexample). -/
def docC5 : Chars :=
  "[mc-publish]\na = 1\n[mc-publish.settings]\nb = 2\n[other]\nc = 3\n".data

/-- Document using CRLF line terminators with the fragment present. -/
def docCrlf : Chars := "[mc-publish]\r\n[other]\r\n".data

/-- Document with no trailing newline after the lines following the fragment. -/
def docNoTrail : Chars := "[mc-publish]\nx = 1\n[other]\ny".data

/-- Fragment-free document using a CRLF terminator. -/
def docCrlfAbsent : Chars := "a\r\n".data

/-- Well-behaved document used by the rewrite witnesses. -/
def docSimple : Chars :=
  "[mc-publish]\nmodrinth = \"old\" # id\n[other]\nx = 1\n".data

/-- First index of a block line whose parsed key is `k`. -/
def firstKeyIdx? (k : Chars) : List Chars → Option Nat
  | [] => none
  | l :: rest =>
    if Setup.parsedKey l = some k then some 0 else (firstKeyIdx? k rest).map (· + 1)

/-- In-place part of `applyOrderedKeys`: only the replacements, no appends. -/
def applySets (blk : List Chars) (keyIndices : List (Chars × Nat))
    (values : Chars → Option Chars) (ordered : List Chars) : List Chars :=
  ordered.foldl
    (fun b key =>
      match Setup.lookupIdx key keyIndices with
      | some i => b.set i (Setup.mkKVLine values key)
      | none => b)
    blk

/-- Append part of `applyOrderedKeys`: the fresh lines for keys with no
recorded index, in order. -/
def appendsOf (keyIndices : List (Chars × Nat)) (values : Chars → Option Chars)
    (ordered : List Chars) : List Chars :=
  (ordered.filter (fun key => (Setup.lookupIdx key keyIndices).isNone)).map
    (Setup.mkKVLine values)

/-- Well-formedness of a key for the idempotence analysis: non-empty, no
surrounding whitespace, and free of `#`, `=`, a leading `[` and line breaks,
so that the written `key = value` line parses back to the same key. -/
def wfKeyB (key : Chars) : Bool :=
  match key with
  | [] => false
  | c :: _ =>
    !isPySpace c && !isPySpace (key.getLastD ' ') &&
    !decide ('#' ∈ key) && !decide ('=' ∈ key) &&
    key.all (fun ch => !isLineBreak ch) && !decide (c = '[')

/-! ### Supporting lemmas -/

theorem replaceChar_append (old : Char) (new a b : Chars) :
    replaceChar old new (a ++ b) = replaceChar old new a ++ replaceChar old new b := by
  induction a with
  | nil => rfl
  | cons c cs ih => simp [replaceChar, ih]

theorem escape_eq_flatMap (v : Chars) :
    replaceChar '"' ['\\', '"'] (replaceChar '\\' ['\\', '\\'] v) =
      (v.map escapeTomlChar).flatten := by
  induction v with
  | nil => rfl
  | cons c cs ih =>
    by_cases h1 : c = '\\'
    · subst h1
      simp [replaceChar, replaceChar_append, escapeTomlChar, ih]
    · by_cases h2 : c = '"'
      · subst h2
        simp [replaceChar, replaceChar_append, escapeTomlChar, ih]
      · simp [replaceChar, replaceChar_append, escapeTomlChar, h1, h2, ih]

/-! ### Claim C4 -/

/-- C4 counterexample: `"123"` is composed entirely of digits, yet for the
key `modrinth` it is NOT emitted as an unquoted numeric literal — only the
`curseforge` key gets the unquoted form. -/
theorem c4_counterexample :
    pyIsDigit "123".data = true ∧
    Setup.format_toml_value "modrinth".data "123".data ≠ "123".data ∧
    Setup.format_toml_value "modrinth".data "123".data = "\"123\"".data := by
  refine ⟨by decide, by decide, by decide⟩

/-- C4 (amended): a value composed entirely of digits is emitted unquoted
only for the key `curseforge`; for every other key, and for every non-digit
value, the value is emitted double-quoted with backslash and double-quote
characters escaped. -/
theorem c4_theorem (name value : Chars) :
    (name = "curseforge".data → pyIsDigit value = true →
      Setup.format_toml_value name value = value) ∧
    ((name ≠ "curseforge".data ∨ pyIsDigit value = false) →
      Setup.format_toml_value name value =
        '"' :: ((value.map escapeTomlChar).flatten ++ ['"'])) := by
  constructor
  · intro h1 h2
    simp [Setup.format_toml_value, h1, h2]
  · intro h
    have hcond : ¬(name = "curseforge".data ∧ pyIsDigit value) := by
      rcases h with h | h
      · exact fun hc => h hc.1
      · exact fun hc => by simp [h] at hc
    simp [Setup.format_toml_value, hcond, escape_eq_flatMap]

/-- C4 witness: the amended theorem applied to `("curseforge", "123")` and to
`("modrinth", "123")`. -/
theorem c4_witness :
    Setup.format_toml_value "curseforge".data "123".data = "123".data ∧
    Setup.format_toml_value "modrinth".data "123".data =
      '"' :: ((("123".data).map escapeTomlChar).flatten ++ ['"']) :=
  ⟨( c4_theorem "curseforge".data "123".data).1 rfl (by decide),
   ( c4_theorem "modrinth".data "123".data).2 (Or.inl (by decide))⟩

/-! ### Claim C1 -/

/-- C1 counterexample: on attempt 2 with platform `mr`, a raised query error
(and likewise a 500 response) makes `check_modrinth_version` return `False`,
so the loop records the api skip and packwiz is NOT invoked on that attempt —
the failure is treated exactly like "version not visible", not as unknown. -/
theorem c1_counterexample :
    envQueryFail.query 2 = .error () ∧
    SyncMod.attemptOutcome "mr".data "1.0".data envQueryFail 2 =
      SyncMod.AttemptOutcome.apiSkip ∧
    envQuery500.query 2 = .ok (500, []) ∧
    SyncMod.attemptOutcome "mr".data "1.0".data envQuery500 2 =
      SyncMod.AttemptOutcome.apiSkip := by
  refine ⟨rfl, by decide, rfl, by decide⟩

/-- C1 (amended): on every attempt after the first on the `mr` platform, a
failure of the remote version-visibility query (a raised error or a non-200
response) is treated as "version not visible" and the external tool is not
invoked on that attempt (the outcome is the api skip). -/
theorem c1_theorem (version : Chars) (env : SyncMod.SyncEnv) (a : Nat)
    (ha : 1 < a)
    (hq : env.query a = .error () ∨
      ∃ st vs, env.query a = .ok (st, vs) ∧ st ≠ 200) :
    SyncMod.attemptOutcome "mr".data version env a =
      SyncMod.AttemptOutcome.apiSkip := by
  have hc : SyncMod.check_modrinth_version version (env.query a) = false := by
    rcases hq with h | ⟨st, vs, h, hst⟩
    · simp [SyncMod.check_modrinth_version, h]
    · simp [SyncMod.check_modrinth_version, h, hst]
  unfold SyncMod.attemptOutcome
  rw [if_pos ⟨rfl, ha, by simp [hc]⟩]

/-- C1 witness: the amended theorem at the concrete failing environment. -/
theorem c1_witness :
    SyncMod.attemptOutcome "mr".data "1.0".data envQueryFail 2 =
      SyncMod.AttemptOutcome.apiSkip :=
  c1_theorem "1.0".data envQueryFail 2 (by decide) (Or.inl rfl)

theorem getD_drop (l : List Chars) (n m : Nat) :
    (l.drop n).getD m [] = l.getD (n + m) [] := by
  show ((l.drop n).get? m).getD [] = (l.get? (n + m)).getD []
  rw [List.get?_drop]

theorem boundaryOffset_le (ls : List Chars) : boundaryOffset ls ≤ ls.length := by
  induction ls with
  | nil => simp [boundaryOffset]
  | cons l rest ih =>
    simp only [boundaryOffset, List.length_cons]
    split
    · omega
    · omega

theorem boundaryOffset_before (ls : List Chars) :
    ∀ j, j < boundaryOffset ls → isBoundary (ls.getD j []) = false := by
  induction ls with
  | nil => simp [boundaryOffset]
  | cons l rest ih =>
    intro j hj
    simp only [boundaryOffset] at hj
    by_cases hb : isBoundary l
    · simp [hb] at hj
    · rw [if_neg (by simp [hb])] at hj
      cases j with
      | zero => simpa using hb
      | succ j => exact ih j (by omega)

theorem boundaryOffset_at (ls : List Chars) (h : boundaryOffset ls < ls.length) :
    isBoundary (ls.getD (boundaryOffset ls) []) = true := by
  induction ls with
  | nil => simp [boundaryOffset] at h
  | cons l rest ih =>
    by_cases hb : isBoundary l
    · simp [boundaryOffset, hb]
    · have hoff : boundaryOffset (l :: rest) = boundaryOffset rest + 1 := by
        simp [boundaryOffset, hb]
      rw [hoff]
      simp only [List.getD_cons_succ]
      exact ih (by rw [hoff] at h; simpa using Nat.lt_of_succ_lt_succ h)

theorem headerIndicesFrom_nil_iff (ls : List Chars) :
    ∀ n, headerIndicesFrom n ls = [] ↔ ∀ l ∈ ls, isOwnerHeader l = false := by
  induction ls with
  | nil => simp [headerIndicesFrom]
  | cons l rest ih =>
    intro n
    by_cases ho : isOwnerHeader l
    · simp [headerIndicesFrom, ho]
    · simp [headerIndicesFrom, ho, ih (n + 1)]

theorem headerIndicesFrom_length (ls : List Chars) :
    ∀ n, (headerIndicesFrom n ls).length = ls.countP isOwnerHeader := by
  induction ls with
  | nil => simp [headerIndicesFrom]
  | cons l rest ih =>
    intro n
    by_cases ho : isOwnerHeader l
    · simp [headerIndicesFrom, ho, List.countP_cons, ih (n + 1)]
    · simp [headerIndicesFrom, ho, List.countP_cons, ih (n + 1)]

theorem headerIndicesFrom_single (ls : List Chars) :
    ∀ n s, headerIndicesFrom n ls = [s] → ∃ j, j < ls.length ∧ s = n + j := by
  induction ls with
  | nil => intro n s h; simp [headerIndicesFrom] at h
  | cons l rest ih =>
    intro n s h
    by_cases ho : isOwnerHeader l
    · simp only [headerIndicesFrom, if_pos ho] at h
      have h1 : s = n := (List.cons_eq_cons.mp h).1.symm
      exact ⟨0, by simp, by omega⟩
    · simp only [headerIndicesFrom, if_neg ho] at h
      obtain ⟨j, hj, hs⟩ := ih (n + 1) s h
      exact ⟨j + 1, by simpa using Nat.succ_lt_succ hj, by omega⟩

/-! ### Claim C5 -/

/-- C5 counterexample: `docC5` has exactly one owner header (line 0) and its
next header line `[mc-publish.settings]` (line 2) is neither `[mc-publish]`
nor starts with `[[mc-publish`, so the claim puts the fragment end at 2; but
the code's boundary test is prefix-based (`startswith("[mc-publish")`), so
the extracted block runs through line 3 and ends at line 4. -/
theorem c5_counterexample :
    headerIndices (pySL docC5) = [0] ∧
    claimFragmentEndC5 (pySL docC5) 0 = 2 ∧
    claimBoundaryC5 ((pySL docC5).getD 2 []) = true ∧
    ModsToml.extract_mc_publish_block docC5 =
      .ok "[mc-publish]\na = 1\n[mc-publish.settings]\nb = 2\n".data := by
  refine ⟨by decide, by decide, by decide, rfl⟩

/-- C5 (amended): for a document with exactly one owner header at line `s`,
the extracted block is the slice from `s` to an end index `e` that is the
first line after `s` that is a table header whose comment-stripped text
starts with neither `[mc-publish` nor `[[mc-publish` (the code's
`is_table_header` ∧ ¬`is_mc_publish_header` boundary), or the end of the
document when no such line exists; in particular when line `s + 1` is such a
boundary header, `e = s + 1`. -/
theorem c5_theorem (text : Chars) (s : Nat)
    (h : headerIndices (pySL text) = [s]) :
    ∃ e,
      ModsToml.extract_mc_publish_block text =
        .ok (joinNL (((pySL text).drop s).take (e - s))) ∧
      s < e ∧ e ≤ (pySL text).length ∧
      (∀ i, s < i → i < e → isBoundary ((pySL text).getD i []) = false) ∧
      (e = (pySL text).length ∨ isBoundary ((pySL text).getD e []) = true) ∧
      (isBoundary ((pySL text).getD (s + 1) []) = true → e = s + 1) := by
  set lines := pySL text with hlines
  obtain ⟨j, hj, hs⟩ := headerIndicesFrom_single lines 0 s h
  have hslen : s < lines.length := by omega
  set e := s + 1 + boundaryOffset (lines.drop (s + 1)) with he
  have hoffle : boundaryOffset (lines.drop (s + 1)) ≤ lines.length - (s + 1) := by
    have := boundaryOffset_le (lines.drop (s + 1))
    simpa using this
  refine ⟨e, ?_, by omega, by omega, ?_, ?_, ?_⟩
  · simp only [ModsToml.extract_mc_publish_block]
    rw [← hlines, h]
  · intro i hsi hie
    have : isBoundary ((lines.drop (s + 1)).getD (i - (s + 1)) []) = false :=
      boundaryOffset_before _ _ (by omega)
    rwa [getD_drop, Nat.add_sub_cancel' (by omega : s + 1 ≤ i)] at this
  · by_cases hcase : boundaryOffset (lines.drop (s + 1)) < lines.length - (s + 1)
    · right
      have : isBoundary
          ((lines.drop (s + 1)).getD (boundaryOffset (lines.drop (s + 1))) []) = true :=
        boundaryOffset_at _ (by simpa using hcase)
      rwa [getD_drop] at this
    · left
      omega
  · intro hb
    have hz : boundaryOffset (lines.drop (s + 1)) = 0 := by
      by_contra hnz
      have : isBoundary ((lines.drop (s + 1)).getD 0 []) = false :=
        boundaryOffset_before _ 0 (by omega)
      rw [getD_drop, Nat.add_zero] at this
      rw [hb] at this
      exact Bool.noConfusion this
    omega

/-- C5 witness: the amended theorem at `docC5`, whose fragment end is 4. -/
theorem c5_witness :
    headerIndices (pySL docC5) = [0] ∧
    ∃ e,
      ModsToml.extract_mc_publish_block docC5 =
        .ok (joinNL (((pySL docC5).drop 0).take (e - 0))) ∧
      0 < e ∧ e ≤ (pySL docC5).length ∧
      (∀ i, 0 < i → i < e → isBoundary ((pySL docC5).getD i []) = false) ∧
      (e = (pySL docC5).length ∨ isBoundary ((pySL docC5).getD e []) = true) ∧
      (isBoundary ((pySL docC5).getD 1 []) = true → e = 1) :=
  ⟨by decide, c5_theorem docC5 0 (by decide)⟩

/-! ### Claim C7 -/

/-- C7: when no line's comment-stripped text equals `[mc-publish]`,
`setup.py`'s locator returns Absent (`none`); when two or more owner-header
lines exist, both locators abort with the fatal multiple-tables error (the
`mods_toml.py` variant additionally treats the zero case as fatal because the
validator requires the table to exist; the Absent-returning locate is
`setup.py`'s, whose Absent result triggers the append path). -/
theorem c7_theorem (text : Chars) :
    ((∀ l ∈ pySL text, isOwnerHeader l = false) →
      Setup.extract_mc_publish_block text = .ok none) ∧
    (2 ≤ (pySL text).countP isOwnerHeader →
      Setup.extract_mc_publish_block text =
        .error "ERROR: Multiple [mc-publish] tables found in mods.toml".data ∧
      ModsToml.extract_mc_publish_block text =
        .error "Multiple [mc-publish] tables found in mods.toml".data) := by
  constructor
  · intro h
    have hnil : headerIndices (pySL text) = [] :=
      (headerIndicesFrom_nil_iff (pySL text) 0).mpr h
    simp only [Setup.extract_mc_publish_block]
    rw [hnil]
  · intro h
    have hlen : 2 ≤ (headerIndices (pySL text)).length := by
      rw [headerIndices, headerIndicesFrom_length]
      exact h
    obtain ⟨a, t, ht⟩ : ∃ a t, headerIndices (pySL text) = a :: t := by
      cases hh : headerIndices (pySL text) with
      | nil => rw [hh] at hlen; simp at hlen
      | cons a t => exact ⟨a, t, rfl⟩
    obtain ⟨b, t2, ht2⟩ : ∃ b t2, t = b :: t2 := by
      cases ht' : t with
      | nil => rw [ht, ht'] at hlen; simp at hlen
      | cons b t2 => exact ⟨b, t2, rfl⟩
    constructor
    · simp only [Setup.extract_mc_publish_block]
      rw [ht, ht2]
    · simp only [ModsToml.extract_mc_publish_block]
      rw [ht, ht2]

/-- C7 witness: the theorem applied to a document with no owner header and to
one with two owner headers. -/
theorem c7_witness :
    Setup.extract_mc_publish_block "x = 1\n".data = .ok none ∧
    (Setup.extract_mc_publish_block "[mc-publish]\n[mc-publish]\n".data =
        .error "ERROR: Multiple [mc-publish] tables found in mods.toml".data ∧
      ModsToml.extract_mc_publish_block "[mc-publish]\n[mc-publish]\n".data =
        .error "Multiple [mc-publish] tables found in mods.toml".data) :=
  ⟨( c7_theorem "x = 1\n".data).1 (by decide),
   ( c7_theorem "[mc-publish]\n[mc-publish]\n".data).2 (by decide)⟩

theorem sync_loop_iff (platform version : Chars) (env : SyncMod.SyncEnv) :
    ∀ fuel a, SyncMod.sync_loop platform version env a fuel = true ↔
      ∃ k, k < fuel ∧
        SyncMod.attemptOutcome platform version env (a + k) =
          SyncMod.AttemptOutcome.converged := by
  intro fuel
  induction fuel with
  | zero => intro a; simp [SyncMod.sync_loop]
  | succ fuel ih =>
    intro a
    by_cases h : SyncMod.attemptOutcome platform version env a =
        SyncMod.AttemptOutcome.converged
    · simp only [SyncMod.sync_loop, if_pos h]
      constructor
      · intro _; exact ⟨0, by omega, by simpa using h⟩
      · intro _; trivial
    · simp only [SyncMod.sync_loop, if_neg h]
      rw [ih (a + 1)]
      constructor
      · rintro ⟨k, hk, hc⟩
        exact ⟨k + 1, by omega, by rw [show a + (k + 1) = a + 1 + k by omega]; exact hc⟩
      · rintro ⟨k, hk, hc⟩
        cases k with
        | zero => exact absurd (by simpa using hc) h
        | succ k =>
          exact ⟨k, by omega, by rw [show a + 1 + k = a + (k + 1) by omega]; exact hc⟩

theorem sync_attempts_length_le (platform version : Chars) (env : SyncMod.SyncEnv) :
    ∀ fuel a, (SyncMod.sync_attempts platform version env a fuel).length ≤ fuel := by
  intro fuel
  induction fuel with
  | zero => intro a; simp [SyncMod.sync_attempts]
  | succ fuel ih =>
    intro a
    simp only [SyncMod.sync_attempts]
    split
    · simp
    · simpa using ih (a + 1)

theorem sync_attempts_length_eq (platform version : Chars) (env : SyncMod.SyncEnv) :
    ∀ fuel a,
      (∀ k, k < fuel →
        SyncMod.attemptOutcome platform version env (a + k) ≠
          SyncMod.AttemptOutcome.converged) →
      (SyncMod.sync_attempts platform version env a fuel).length = fuel := by
  intro fuel
  induction fuel with
  | zero => intro a _; simp [SyncMod.sync_attempts]
  | succ fuel ih =>
    intro a h
    have h0 : SyncMod.attemptOutcome platform version env a ≠
        SyncMod.AttemptOutcome.converged := by
      have := h 0 (by omega)
      simpa using this
    simp only [SyncMod.sync_attempts, if_neg h0, List.length_cons]
    rw [ih (a + 1) (fun k hk => by
      rw [show a + 1 + k = a + (k + 1) by omega]
      exact h (k + 1) (by omega))]

/-! ### Claim C6 -/

theorem attemptOutcome_converged_iff (platform version : Chars)
    (env : SyncMod.SyncEnv) (a : Nat) :
    SyncMod.attemptOutcome platform version env a =
        SyncMod.AttemptOutcome.converged ↔
      (¬(platform = "mr".data ∧ 1 < a ∧
          SyncMod.check_modrinth_version version (env.query a) = false) ∧
        (env.packwiz a).1 = true ∧ env.gitChanges a = true) := by
  rcases hpw : env.packwiz a with ⟨success, output⟩
  by_cases h1 : platform = "mr".data ∧ 1 < a ∧
      SyncMod.check_modrinth_version version (env.query a) = false
  · obtain ⟨ha, hb, hc⟩ := h1
    simp [SyncMod.attemptOutcome, ha, hb, hc, hpw]
  · have h1' : ¬(platform = "mr".data ∧ 1 < a ∧
        (!SyncMod.check_modrinth_version version (env.query a)) = true) :=
      fun hc => h1 ⟨hc.1, hc.2.1, by simpa using hc.2.2⟩
    cases success <;> cases hg : env.gitChanges a <;>
        simp [SyncMod.attemptOutcome, hpw, hg, h1, h1'] <;> split <;> simp

/-- C6: an attempt converges exactly when the tool is invoked and reports
success and the git probe then reports changes; the loop returns success iff
some attempt within the budget converges; at most `budget` attempts are
performed; and when the tool always succeeds but the probe never reports a
change the run returns failure after exactly the budgeted number of
attempts — never a false success. -/
theorem c6_theorem (platform version : Chars) (env : SyncMod.SyncEnv)
    (budget : Nat) :
    (∀ a, SyncMod.attemptOutcome platform version env a =
        SyncMod.AttemptOutcome.converged ↔
      (¬(platform = "mr".data ∧ 1 < a ∧
          SyncMod.check_modrinth_version version (env.query a) = false) ∧
        (env.packwiz a).1 = true ∧ env.gitChanges a = true)) ∧
    (SyncMod.sync_loop platform version env 1 budget = true ↔
      ∃ a, 1 ≤ a ∧ a ≤ budget ∧
        SyncMod.attemptOutcome platform version env a =
          SyncMod.AttemptOutcome.converged) ∧
    (SyncMod.sync_attempts platform version env 1 budget).length ≤ budget ∧
    ((∀ a, (env.packwiz a).1 = true) → (∀ a, env.gitChanges a = false) →
      SyncMod.sync_loop platform version env 1 budget = false ∧
      (SyncMod.sync_attempts platform version env 1 budget).length = budget) := by
  have houtcome := attemptOutcome_converged_iff platform version env
  refine ⟨houtcome, ?_, sync_attempts_length_le platform version env budget 1, ?_⟩
  · rw [sync_loop_iff]
    constructor
    · rintro ⟨k, hk, hc⟩
      exact ⟨1 + k, by omega, by omega, hc⟩
    · rintro ⟨a, ha1, ha2, hc⟩
      exact ⟨a - 1, by omega, by rw [show 1 + (a - 1) = a by omega]; exact hc⟩
  · intro hsucc hch
    have hnc : ∀ a, SyncMod.attemptOutcome platform version env a ≠
        SyncMod.AttemptOutcome.converged := by
      intro a hc
      have := ((houtcome a).mp hc).2.2
      rw [hch a] at this
      exact Bool.noConfusion this
    constructor
    · rw [Bool.eq_false_iff]
      intro hl
      obtain ⟨k, _, hc⟩ := (sync_loop_iff platform version env budget 1).mp hl
      exact hnc _ hc
    · exact sync_attempts_length_eq platform version env budget 1
        (fun k _ => hnc (1 + k))

/-- C6 witness: budget 2, tool always succeeds, probe never reports changes:
failure after exactly 2 attempts. -/
theorem c6_witness :
    SyncMod.sync_loop "cf".data "1.0".data envNoChange 1 2 = false ∧
    (SyncMod.sync_attempts "cf".data "1.0".data envNoChange 1 2).length = 2 :=
  ( c6_theorem "cf".data "1.0".data envNoChange 2).2.2.2
    (fun _ => rfl) (fun _ => rfl)

theorem isPrefixC_iff (p : Chars) : ∀ s, isPrefixC p s = true ↔ ∃ t, s = p ++ t := by
  induction p with
  | nil => intro s; simp [isPrefixC]
  | cons c cs ih =>
    intro s
    cases s with
    | nil =>
      simp only [isPrefixC]
      constructor
      · intro h; exact Bool.noConfusion h
      · rintro ⟨t, ht⟩; exact absurd ht (by simp)
    | cons d ds =>
      by_cases hcd : c = d
      · subst hcd
        rw [show isPrefixC (c :: cs) (c :: ds) = isPrefixC cs ds from by
          simp [isPrefixC]]
        rw [ih ds]
        constructor
        · rintro ⟨t, ht⟩; exact ⟨t, by simp [ht]⟩
        · rintro ⟨t, ht⟩
          simp only [List.cons_append, List.cons_eq_cons] at ht
          exact ⟨t, ht.2⟩
      · simp only [isPrefixC, if_neg hcd]
        constructor
        · intro h; exact Bool.noConfusion h
        · rintro ⟨t, ht⟩
          simp only [List.cons_append, List.cons_eq_cons] at ht
          exact absurd ht.1.symm hcd

theorem containsSub_iff (n : Chars) : ∀ h, containsSub n h = true ↔ ∃ a b, h = a ++ n ++ b := by
  intro h
  induction h with
  | nil =>
    simp only [containsSub]
    cases n with
    | nil => simp
    | cons c cs =>
      constructor
      · intro hh; exact Bool.noConfusion hh
      · rintro ⟨a, b, hab⟩; exact absurd hab (by simp)
  | cons c cs ih =>
    simp only [containsSub, Bool.or_eq_true]
    constructor
    · rintro (hp | hc)
      · obtain ⟨t, ht⟩ := (isPrefixC_iff n (c :: cs)).mp hp
        exact ⟨[], t, by simp [ht]⟩
      · obtain ⟨a, b, hab⟩ := ih.mp hc
        exact ⟨c :: a, b, by simp [hab]⟩
    · rintro ⟨a, b, hab⟩
      cases a with
      | nil =>
        left
        exact (isPrefixC_iff n (c :: cs)).mpr ⟨b, by simpa using hab⟩
      | cons a0 as =>
        right
        simp only [List.cons_append, List.cons_eq_cons] at hab
        exact ih.mpr ⟨as, b, hab.2⟩

theorem joinSep_mem_split (sep : Chars) : ∀ (l : List Chars) (x : Chars), x ∈ l →
    ∃ a b, joinSep sep l = a ++ x ++ b := by
  intro l
  induction l with
  | nil => intro x hx; exact absurd hx (by simp)
  | cons y rest ih =>
    intro x hx
    cases rest with
    | nil =>
      have hxy : x = y := by simpa using hx
      exact ⟨[], [], by simp [joinSep, hxy]⟩
    | cons r rs =>
      rcases List.mem_cons.mp hx with hxy | hxr
      · exact ⟨[], sep ++ joinSep sep (r :: rs), by simp [joinSep, hxy]⟩
      · obtain ⟨a, b, hab⟩ := ih x hxr
        exact ⟨y ++ sep ++ a, b, by simp [joinSep, hab]⟩

theorem collect_no_placeholder (md : Chars → Option ModsToml.TomlVal) :
    ∀ keys : List Chars,
      (∀ k ∈ keys, ∀ v, ModsToml.normalize_value (md k) = some v →
        containsSub "$\x7b".data v = false) →
      ModsToml.collectValues keys md =
        .ok (keys.filter (fun k => (ModsToml.normalize_value (md k)).isNone),
          keys.filterMap
            (fun k => (ModsToml.normalize_value (md k)).map (fun v => (k, v)))) := by
  intro keys
  induction keys with
  | nil => intro _; rfl
  | cons key rest ih =>
    intro h
    have hrest := ih (fun k hk v hv => h k (by simp [hk]) v hv)
    cases hn : ModsToml.normalize_value (md key) with
    | none =>
      simp [ModsToml.collectValues, hn, hrest, List.filter_cons, List.filterMap_cons]
    | some v =>
      have hv : containsSub "$\x7b".data v = false := h key (by simp) v hn
      simp [ModsToml.collectValues, hn, hv, hrest, List.filter_cons,
        List.filterMap_cons]

theorem collect_first_offender (md : Chars → Option ModsToml.TomlVal) :
    ∀ (keys : List Chars) (k : Chars),
      keys.find? (fun key =>
        Option.any (fun v => containsSub "$\x7b".data v)
          (ModsToml.normalize_value (md key))) = some k →
      ModsToml.collectValues keys md =
        .error (ModsToml.placeholderMessage k
          ((ModsToml.normalize_value (md k)).getD [])) := by
  intro keys
  induction keys with
  | nil => intro k h; exact absurd h (by simp)
  | cons key rest ih =>
    intro k h
    by_cases hp : Option.any (fun v => containsSub "$\x7b".data v)
        (ModsToml.normalize_value (md key)) = true
    · simp only [List.find?, hp] at h
      have hk : k = key := by simpa using h.symm
      subst hk
      cases hn : ModsToml.normalize_value (md k) with
      | none => rw [hn] at hp; exact absurd hp (by simp [Option.any])
      | some v =>
        have hv : containsSub "$\x7b".data v = true := by
          rw [hn] at hp; simpa [Option.any] using hp
        simp [ModsToml.collectValues, hn, hv]
    · have hp' : Option.any (fun v => containsSub "$\x7b".data v)
          (ModsToml.normalize_value (md key)) = false := by
        simpa using hp
      simp only [List.find?, hp'] at h
      have hrest := ih k h
      cases hn : ModsToml.normalize_value (md key) with
      | none => simp [ModsToml.collectValues, hn, hrest]
      | some v =>
        have hv : containsSub "$\x7b".data v = false := by
          rw [hn] at hp'; simpa [Option.any] using hp'
        simp [ModsToml.collectValues, hn, hv, hrest]

/-! ### Claim C8 -/

/-- C8: when no present value contains a placeholder and at least two
required keys are missing, validation fails with the single missing-keys
diagnostic, and that diagnostic names every missing required key. -/
theorem c8_theorem (md : Chars → Option ModsToml.TomlVal)
    (hph : ModsToml.REQUIRED_KEYS.all (fun k =>
      Option.all (fun v => !containsSub "$\x7b".data v)
        (ModsToml.normalize_value (md k))) = true)
    (hmiss : 2 ≤ (ModsToml.REQUIRED_KEYS.filter
      (fun k => (ModsToml.normalize_value (md k)).isNone)).length) :
    ModsToml.read_metadata_validate md =
      .error (ModsToml.missingMessage (ModsToml.REQUIRED_KEYS.filter
        (fun k => (ModsToml.normalize_value (md k)).isNone))) ∧
    ∀ k ∈ ModsToml.REQUIRED_KEYS, (ModsToml.normalize_value (md k)).isNone →
      containsSub ("[mc-publish].".data ++ k)
        (ModsToml.missingMessage (ModsToml.REQUIRED_KEYS.filter
          (fun k => (ModsToml.normalize_value (md k)).isNone))) = true := by
  have hph' : ∀ k ∈ ModsToml.REQUIRED_KEYS, ∀ v,
      ModsToml.normalize_value (md k) = some v →
      containsSub "$\x7b".data v = false := by
    intro k hk v hv
    have := (List.all_eq_true.mp hph) k hk
    rw [hv] at this
    simpa [Option.all] using this
  have hcollect := collect_no_placeholder md ModsToml.REQUIRED_KEYS hph'
  set missing := ModsToml.REQUIRED_KEYS.filter
    (fun k => (ModsToml.normalize_value (md k)).isNone) with hmdef
  have hne : missing.isEmpty = false := by
    cases hm : missing with
    | nil => rw [hm] at hmiss; simp at hmiss
    | cons a t => simp [hm]
  constructor
  · simp only [ModsToml.read_metadata_validate, hcollect, ← hmdef, hne]
    simp
  · intro k hk hnone
    have hkm : k ∈ missing := by
      rw [hmdef]
      exact List.mem_filter.mpr ⟨hk, by simpa using hnone⟩
    have hmem : ("[mc-publish].".data ++ k) ∈
        missing.map (fun key => "[mc-publish].".data ++ key) :=
      List.mem_map_of_mem _ hkm
    obtain ⟨a, b, hab⟩ := joinSep_mem_split ", ".data _ _ hmem
    refine (containsSub_iff _ _).mpr
      ⟨"Missing required keys in mods.toml: ".data ++ a, b, ?_⟩
    simp only [ModsToml.missingMessage]
    rw [hab]
    simp [List.append_assoc]

/-- C8 witness: the theorem at a mapping missing `curseforge` and
`mc_version`; the single diagnostic names both. -/
theorem c8_witness :
    ModsToml.read_metadata_validate mdMissingTwo =
      .error (ModsToml.missingMessage (ModsToml.REQUIRED_KEYS.filter
        (fun k => (ModsToml.normalize_value (mdMissingTwo k)).isNone))) ∧
    ∀ k ∈ ModsToml.REQUIRED_KEYS,
      (ModsToml.normalize_value (mdMissingTwo k)).isNone →
      containsSub ("[mc-publish].".data ++ k)
        (ModsToml.missingMessage (ModsToml.REQUIRED_KEYS.filter
          (fun k => (ModsToml.normalize_value (mdMissingTwo k)).isNone))) = true :=
  c8_theorem mdMissingTwo (by decide) (by decide)

/-! ### Claim C9 -/

/-- C9 counterexample: `mdTwoPlaceholders` has placeholder markers in both
`modrinth` and `curseforge`; validation fails naming only `modrinth` — the
diagnostic does not name the equally offending key `curseforge`. -/
theorem c9_counterexample :
    ModsToml.normalize_value (mdTwoPlaceholders "curseforge".data) =
      some "${B}".data ∧
    containsSub "$\x7b".data "${B}".data = true ∧
    ModsToml.read_metadata_validate mdTwoPlaceholders =
      .error (ModsToml.placeholderMessage "modrinth".data "${A}".data) ∧
    containsSub "curseforge".data
      (ModsToml.placeholderMessage "modrinth".data "${A}".data) = false := by
  refine ⟨by decide, by decide, rfl, by decide⟩

/-- C9 (amended): validation fails with the invalid-value placeholder error
naming the first required key (in required-key order) whose normalized value
contains the marker `${`, even though that key is present and non-empty. -/
theorem c9_theorem (md : Chars → Option ModsToml.TomlVal) (k : Chars)
    (h : ModsToml.REQUIRED_KEYS.find? (fun key =>
      Option.any (fun v => containsSub "$\x7b".data v)
        (ModsToml.normalize_value (md key))) = some k) :
    ModsToml.read_metadata_validate md =
      .error (ModsToml.placeholderMessage k
        ((ModsToml.normalize_value (md k)).getD [])) := by
  have hcollect := collect_first_offender md ModsToml.REQUIRED_KEYS k h
  simp only [ModsToml.read_metadata_validate, hcollect]

/-- C9 witness: the amended theorem at `mdOnePlaceholder`, whose first (and
only) offender is `mc_version`. -/
theorem c9_witness :
    ModsToml.read_metadata_validate mdOnePlaceholder =
      .error (ModsToml.placeholderMessage "mc_version".data
        ((ModsToml.normalize_value (mdOnePlaceholder "mc_version".data)).getD [])) :=
  c9_theorem mdOnePlaceholder "mc_version".data (by decide)

theorem getD_set_ne (l : List Chars) (i j : Nat) (x : Chars) (h : i ≠ j) :
    (l.set i x).getD j [] = l.getD j [] := by
  show ((l.set i x).get? j).getD [] = (l.get? j).getD []
  rw [List.get?_set_ne x l h]

theorem getD_set_self (l : List Chars) (i : Nat) (x : Chars) (h : i < l.length) :
    (l.set i x).getD i [] = x := by
  show ((l.set i x).get? i).getD [] = x
  rw [List.get?_set_eq_of_lt x h]
  rfl

theorem getD_append_left (a b : List Chars) (j : Nat) (h : j < a.length) :
    (a ++ b).getD j [] = a.getD j [] := by
  show ((a ++ b).get? j).getD [] = (a.get? j).getD []
  rw [List.get?_append h]

theorem lookupIdx_mem (k : Chars) :
    ∀ (l : List (Chars × Nat)) (j : Nat), Setup.lookupIdx k l = some j → (k, j) ∈ l := by
  intro l
  induction l with
  | nil => intro j h; exact absurd h (by simp [Setup.lookupIdx])
  | cons p rest ih =>
    intro j h
    rcases p with ⟨k', i⟩
    by_cases hk : k' = k
    · subst hk
      simp only [Setup.lookupIdx, if_pos rfl] at h
      simp [← Option.some_inj.mp h]
    · simp only [Setup.lookupIdx, if_neg hk] at h
      exact List.mem_cons_of_mem _ (ih j h)

theorem lookupIdx_append (k : Chars) :
    ∀ (a b : List (Chars × Nat)),
      Setup.lookupIdx k (a ++ b) =
        match Setup.lookupIdx k a with
        | some j => some j
        | none => Setup.lookupIdx k b := by
  intro a b
  induction a with
  | nil => simp [Setup.lookupIdx]
  | cons p rest ih =>
    rcases p with ⟨k', i⟩
    by_cases hk : k' = k
    · subst hk; simp [Setup.lookupIdx]
    · simp only [List.cons_append, Setup.lookupIdx, if_neg hk]
      exact ih

theorem firstKeyIdx?_spec (k : Chars) :
    ∀ (ls : List Chars) (i : Nat), firstKeyIdx? k ls = some i →
      i < ls.length ∧ Setup.parsedKey (ls.getD i []) = some k ∧
        ∀ j, j < i → Setup.parsedKey (ls.getD j []) ≠ some k := by
  intro ls
  induction ls with
  | nil => intro i h; exact absurd h (by simp [firstKeyIdx?])
  | cons l rest ih =>
    intro i h
    by_cases hp : Setup.parsedKey l = some k
    · simp only [firstKeyIdx?, if_pos hp] at h
      obtain rfl : i = 0 := by simpa using h.symm
      exact ⟨by simp, by simpa using hp, by omega⟩
    · simp only [firstKeyIdx?, if_neg hp] at h
      cases hr : firstKeyIdx? k rest with
      | none => rw [hr] at h; exact absurd h (by simp)
      | some i' =>
        rw [hr] at h
        obtain rfl : i = i' + 1 := by simpa using h.symm
        obtain ⟨h1, h2, h3⟩ := ih i' hr
        refine ⟨by simpa using Nat.succ_lt_succ h1, by simpa using h2, ?_⟩
        intro j hj
        cases j with
        | zero => simpa using hp
        | succ j => simpa using h3 j (by omega)

theorem firstKeyIdx?_isSome (k : Chars) :
    ∀ ls : List Chars, (∃ l ∈ ls, Setup.parsedKey l = some k) →
      ∃ i, firstKeyIdx? k ls = some i := by
  intro ls
  induction ls with
  | nil => rintro ⟨l, hl, _⟩; exact absurd hl (by simp)
  | cons l rest ih =>
    rintro ⟨l', hl', hp'⟩
    by_cases hp : Setup.parsedKey l = some k
    · exact ⟨0, by simp [firstKeyIdx?, hp]⟩
    · rcases List.mem_cons.mp hl' with rfl | hmem
      · exact absurd hp' hp
      · obtain ⟨i, hi⟩ := ih ⟨l', hmem, hp'⟩
        exact ⟨i + 1, by simp [firstKeyIdx?, hp, hi]⟩

theorem buildFrom_mem (values : Chars → Option Chars) :
    ∀ (block : List Chars) (i : Nat) (acc : List (Chars × Nat)) (p : Chars × Nat),
      p ∈ Setup.buildKeyIndicesFrom values block i acc →
      p ∈ acc ∨ (i ≤ p.2 ∧ p.2 - i < block.length ∧
        Setup.parsedKey (block.getD (p.2 - i) []) = some p.1 ∧
        (values p.1).isSome = true) := by
  intro block
  induction block with
  | nil => intro i acc p h; exact Or.inl h
  | cons line rest ih =>
    intro i acc p h
    rcases hp : Setup.parsedKey line with _ | key
    · simp only [Setup.buildKeyIndicesFrom, hp] at h
      rcases ih (i + 1) acc p h with hacc | ⟨h1, h2, h3, h4⟩
      · exact Or.inl hacc
      · refine Or.inr ⟨by omega, by simp only [List.length_cons]; omega, ?_, h4⟩
        rw [show p.2 - i = (p.2 - (i + 1)) + 1 by omega]
        simpa using h3
    · simp only [Setup.buildKeyIndicesFrom, hp] at h
      by_cases hcond : (values key).isSome = true ∧ (Setup.lookupIdx key acc).isNone = true
      · rw [if_pos hcond] at h
        rcases ih (i + 1) (acc ++ [(key, i)]) p h with hacc | ⟨h1, h2, h3, h4⟩
        · rcases List.mem_append.mp hacc with hacc | hnew
          · exact Or.inl hacc
          · obtain rfl : p = (key, i) := by simpa using hnew
            exact Or.inr ⟨le_refl i, by simp, by simpa using hp, hcond.1⟩
        · refine Or.inr ⟨by omega, by simp only [List.length_cons]; omega, ?_, h4⟩
          rw [show p.2 - i = (p.2 - (i + 1)) + 1 by omega]
          simpa using h3
      · rw [if_neg hcond] at h
        rcases ih (i + 1) acc p h with hacc | ⟨h1, h2, h3, h4⟩
        · exact Or.inl hacc
        · refine Or.inr ⟨by omega, by simp only [List.length_cons]; omega, ?_, h4⟩
          rw [show p.2 - i = (p.2 - (i + 1)) + 1 by omega]
          simpa using h3

theorem buildFrom_lookup (values : Chars → Option Chars) (k : Chars) :
    ∀ (block : List Chars) (i : Nat) (acc : List (Chars × Nat)),
      Setup.lookupIdx k (Setup.buildKeyIndicesFrom values block i acc) =
        match Setup.lookupIdx k acc with
        | some j => some j
        | none =>
          if (values k).isSome = true then (firstKeyIdx? k block).map (· + i)
          else none := by
  intro block
  induction block with
  | nil =>
    intro i acc
    simp only [Setup.buildKeyIndicesFrom, firstKeyIdx?]
    cases Setup.lookupIdx k acc <;> simp
  | cons line rest ih =>
    intro i acc
    rcases hp : Setup.parsedKey line with _ | key
    · simp only [Setup.buildKeyIndicesFrom, hp]
      rw [ih (i + 1) acc]
      have hfk : firstKeyIdx? k (line :: rest) = (firstKeyIdx? k rest).map (· + 1) := by
        have hne : ¬(Setup.parsedKey line = some k) := by rw [hp]; simp
        simp [firstKeyIdx?, hne]
      rw [hfk]
      cases Setup.lookupIdx k acc
      · simp only []
        split
        · cases firstKeyIdx? k rest <;> simp [Option.map_map]
          omega
        · rfl
      · rfl
    · simp only [Setup.buildKeyIndicesFrom, hp]
      by_cases hcond : (values key).isSome = true ∧ (Setup.lookupIdx key acc).isNone = true
      · rw [if_pos hcond, ih (i + 1) (acc ++ [(key, i)])]
        rw [lookupIdx_append]
        by_cases hkey : key = k
        · subst hkey
          have hacc : Setup.lookupIdx key acc = none := by
            cases hx : Setup.lookupIdx key acc
            · rfl
            · rw [hx] at hcond; simp at hcond
          rw [hacc]
          simp only [Setup.lookupIdx, if_pos rfl]
          have hfk : firstKeyIdx? key (line :: rest) = some 0 := by
            simp [firstKeyIdx?, hp]
          rw [hfk, if_pos hcond.1]
          simp [hcond.1]
        · have hsingle : Setup.lookupIdx k [(key, i)] = none := by
            simp [Setup.lookupIdx, hkey]
          have hfk : firstKeyIdx? k (line :: rest) = (firstKeyIdx? k rest).map (· + 1) := by
            have hne : ¬(Setup.parsedKey line = some k) := by rw [hp]; simp [hkey]
            simp [firstKeyIdx?, hne]
          rw [hfk, hsingle]
          cases hacc : Setup.lookupIdx k acc
          · simp only []
            split
            · cases firstKeyIdx? k rest <;> simp [Option.map_map]
              omega
            · rfl
          · rfl
      · rw [if_neg hcond, ih (i + 1) acc]
        by_cases hkey : key = k
        · subst hkey
          cases hacc : Setup.lookupIdx key acc
          · simp only []
            have hns : (values key).isSome = false := by
              rcases Bool.eq_false_or_eq_true ((values key).isSome) with ht | hf
              · exact absurd ⟨ht, by simp [hacc]⟩ hcond
              · exact hf
            rw [hns]
            simp
          · rfl
        · have hfk : firstKeyIdx? k (line :: rest) = (firstKeyIdx? k rest).map (· + 1) := by
            have hne : ¬(Setup.parsedKey line = some k) := by rw [hp]; simp [hkey]
            simp [firstKeyIdx?, hne]
          rw [hfk]
          cases Setup.lookupIdx k acc
          · simp only []
            split
            · cases firstKeyIdx? k rest <;> simp [Option.map_map]
              omega
            · rfl
          · rfl

theorem apply_decomp (values : Chars → Option Chars) (keyIdx : List (Chars × Nat)) :
    ∀ (ordered : List Chars) (blk extra : List Chars),
      (∀ p ∈ keyIdx, p.2 < blk.length) →
      Setup.applyOrderedKeys (blk ++ extra) keyIdx values ordered =
        applySets blk keyIdx values ordered ++
          (extra ++ appendsOf keyIdx values ordered) := by
  intro ordered
  induction ordered with
  | nil => intro blk extra _; simp [Setup.applyOrderedKeys, applySets, appendsOf]
  | cons key rest ih =>
    intro blk extra hbound
    cases hl : Setup.lookupIdx key keyIdx with
    | some i =>
      have hi : i < blk.length := hbound (key, i) (lookupIdx_mem key keyIdx i hl)
      have hstep : Setup.applyOrderedKeys (blk ++ extra) keyIdx values (key :: rest) =
          Setup.applyOrderedKeys (blk.set i (Setup.mkKVLine values key) ++ extra)
            keyIdx values rest := by
        simp only [Setup.applyOrderedKeys, List.foldl_cons, hl]
        rw [List.set_append_left i (Setup.mkKVLine values key) hi]
      rw [hstep, ih (blk.set i (Setup.mkKVLine values key)) extra
        (fun p hp => by simpa using hbound p hp)]
      have happ : appendsOf keyIdx values (key :: rest) = appendsOf keyIdx values rest := by
        simp [appendsOf, List.filter_cons, hl]
      have hsets : applySets blk keyIdx values (key :: rest) =
          applySets (blk.set i (Setup.mkKVLine values key)) keyIdx values rest := by
        simp [applySets, List.foldl_cons, hl]
      rw [happ, hsets]
    | none =>
      have hstep : Setup.applyOrderedKeys (blk ++ extra) keyIdx values (key :: rest) =
          Setup.applyOrderedKeys (blk ++ (extra ++ [Setup.mkKVLine values key]))
            keyIdx values rest := by
        simp [Setup.applyOrderedKeys, List.foldl_cons, hl]
      rw [hstep, ih blk (extra ++ [Setup.mkKVLine values key]) hbound]
      have happ : appendsOf keyIdx values (key :: rest) =
          Setup.mkKVLine values key :: appendsOf keyIdx values rest := by
        simp [appendsOf, List.filter_cons, hl]
      have hsets : applySets blk keyIdx values (key :: rest) =
          applySets blk keyIdx values rest := by
        simp [applySets, List.foldl_cons, hl]
      rw [happ, hsets]
      simp

theorem applySets_length (values : Chars → Option Chars) (keyIdx : List (Chars × Nat)) :
    ∀ (ordered : List Chars) (blk : List Chars),
      (applySets blk keyIdx values ordered).length = blk.length := by
  intro ordered
  induction ordered with
  | nil => intro blk; rfl
  | cons key rest ih =>
    intro blk
    cases hl : Setup.lookupIdx key keyIdx with
    | some i =>
      simp only [applySets, List.foldl_cons, hl]
      rw [show List.foldl _ (blk.set i (Setup.mkKVLine values key)) rest =
        applySets (blk.set i (Setup.mkKVLine values key)) keyIdx values rest from rfl]
      rw [ih]
      simp
    | none =>
      simp only [applySets, List.foldl_cons, hl]
      exact ih blk

theorem applySets_getD_of_ne (values : Chars → Option Chars)
    (keyIdx : List (Chars × Nat)) (j : Nat) :
    ∀ (ordered : List Chars) (blk : List Chars),
      (∀ key ∈ ordered, Setup.lookupIdx key keyIdx ≠ some j) →
      (applySets blk keyIdx values ordered).getD j [] = blk.getD j [] := by
  intro ordered
  induction ordered with
  | nil => intro blk _; rfl
  | cons key rest ih =>
    intro blk h
    cases hl : Setup.lookupIdx key keyIdx with
    | some i =>
      have hij : i ≠ j := by
        intro hij
        exact h key (by simp) (by rw [hl, hij])
      simp only [applySets, List.foldl_cons, hl]
      rw [show List.foldl _ (blk.set i (Setup.mkKVLine values key)) rest =
        applySets (blk.set i (Setup.mkKVLine values key)) keyIdx values rest from rfl]
      rw [ih _ (fun key' hk' => h key' (by simp [hk']))]
      exact getD_set_ne blk i j _ hij
    | none =>
      simp only [applySets, List.foldl_cons, hl]
      exact ih blk (fun key' hk' => h key' (by simp [hk']))

theorem applySets_getD_preserve (values : Chars → Option Chars)
    (keyIdx : List (Chars × Nat)) (j : Nat) (k : Chars) :
    ∀ (ordered : List Chars) (blk : List Chars),
      j < blk.length →
      blk.getD j [] = Setup.mkKVLine values k →
      (∀ key ∈ ordered, Setup.lookupIdx key keyIdx = some j → key = k) →
      (applySets blk keyIdx values ordered).getD j [] = Setup.mkKVLine values k := by
  intro ordered
  induction ordered with
  | nil => intro blk _ hblk _; exact hblk
  | cons key rest ih =>
    intro blk hlen hblk huniq
    cases hl : Setup.lookupIdx key keyIdx with
    | some i =>
      simp only [applySets, List.foldl_cons, hl]
      rw [show List.foldl _ (blk.set i (Setup.mkKVLine values key)) rest =
        applySets (blk.set i (Setup.mkKVLine values key)) keyIdx values rest from rfl]
      by_cases hij : i = j
      · subst hij
        have hkey : key = k := huniq key (by simp) hl
        subst hkey
        exact ih _ (by simpa using hlen) (getD_set_self blk i _ hlen)
          (fun key' hk' => huniq key' (by simp [hk']))
      · exact ih _ (by simpa using hlen)
          (by rw [getD_set_ne blk i j _ hij]; exact hblk)
          (fun key' hk' => huniq key' (by simp [hk']))
    | none =>
      simp only [applySets, List.foldl_cons, hl]
      exact ih blk hlen hblk (fun key' hk' => huniq key' (by simp [hk']))

theorem applySets_getD_eq (values : Chars → Option Chars)
    (keyIdx : List (Chars × Nat)) (j : Nat) (k : Chars) :
    ∀ (ordered : List Chars) (blk : List Chars),
      k ∈ ordered →
      Setup.lookupIdx k keyIdx = some j →
      j < blk.length →
      (∀ key ∈ ordered, Setup.lookupIdx key keyIdx = some j → key = k) →
      (applySets blk keyIdx values ordered).getD j [] = Setup.mkKVLine values k := by
  intro ordered
  induction ordered with
  | nil => intro blk hk; exact absurd hk (by simp)
  | cons key rest ih =>
    intro blk hk hlk hlen huniq
    by_cases hkey : key = k
    · subst hkey
      simp only [applySets, List.foldl_cons, hlk]
      rw [show List.foldl _ (blk.set j (Setup.mkKVLine values key)) rest =
        applySets (blk.set j (Setup.mkKVLine values key)) keyIdx values rest from rfl]
      exact applySets_getD_preserve values keyIdx j key rest _
        (by simpa using hlen) (getD_set_self blk j _ hlen)
        (fun key' hk' => huniq key' (by simp [hk']))
    · have hkrest : k ∈ rest := by
        rcases List.mem_cons.mp hk with h | h
        · exact absurd h.symm hkey
        · exact h
      cases hl : Setup.lookupIdx key keyIdx with
      | some i =>
        have hij : i ≠ j := by
          intro hij
          exact hkey (huniq key (by simp) (by rw [hl, hij]))
        simp only [applySets, List.foldl_cons, hl]
        rw [show List.foldl _ (blk.set i (Setup.mkKVLine values key)) rest =
          applySets (blk.set i (Setup.mkKVLine values key)) keyIdx values rest from rfl]
        exact ih _ hkrest hlk (by simpa using hlen)
          (fun key' hk' => huniq key' (by simp [hk']))
      | none =>
        simp only [applySets, List.foldl_cons, hl]
        exact ih blk hkrest hlk hlen (fun key' hk' => huniq key' (by simp [hk']))

/-! ### Claim C10 -/

/-- C10: when the fragment body contains two or more `key = value` lines for
the same desired key `k`, the rewrite replaces only the first such line (at
its original position `i₀`), leaves every later duplicate line for `k`
byte-identical, and appends no additional line for `k` — the appended region
consists exactly of the lines for keys with no recorded index, and `k` has a
recorded index. -/
theorem c10_theorem (block : List Chars) (values : Chars → Option Chars)
    (ordered : List Chars) (k : Chars)
    (hk : k ∈ ordered) (hv : (values k).isSome = true)
    (hdup : 2 ≤ (block.filter (fun l => decide (Setup.parsedKey l = some k))).length) :
    ∃ i₀ core appended,
      firstKeyIdx? k block = some i₀ ∧
      (∀ j, j < i₀ → Setup.parsedKey (block.getD j []) ≠ some k) ∧
      Setup.applyOrderedKeys block (Setup.buildKeyIndices block values) values ordered
        = core ++ appended ∧
      core.length = block.length ∧
      core.getD i₀ [] = Setup.mkKVLine values k ∧
      (∀ j, j < block.length → j ≠ i₀ →
        Setup.parsedKey (block.getD j []) = some k →
        core.getD j [] = block.getD j []) ∧
      appended = (ordered.filter
        (fun key =>
          (Setup.lookupIdx key (Setup.buildKeyIndices block values)).isNone)).map
        (Setup.mkKVLine values) ∧
      (Setup.lookupIdx k (Setup.buildKeyIndices block values)).isNone = false := by
  set keyIdx := Setup.buildKeyIndices block values with hkeyIdx
  -- the first line for `k` exists
  have hex : ∃ l ∈ block, Setup.parsedKey l = some k := by
    have hne : block.filter (fun l => decide (Setup.parsedKey l = some k)) ≠ [] := by
      intro hnil
      rw [hnil] at hdup
      simp at hdup
    obtain ⟨l, hl⟩ := List.exists_mem_of_ne_nil _ hne
    have := List.mem_filter.mp hl
    exact ⟨l, this.1, by simpa using this.2⟩
  obtain ⟨i₀, hfk⟩ := firstKeyIdx?_isSome k block hex
  obtain ⟨hi₀len, hi₀parse, hi₀first⟩ := firstKeyIdx?_spec k block i₀ hfk
  -- the recorded index of `k` is `i₀`
  have hlk : Setup.lookupIdx k keyIdx = some i₀ := by
    rw [hkeyIdx, Setup.buildKeyIndices, buildFrom_lookup values k block 0 []]
    simp only [Setup.lookupIdx, hv, if_pos rfl, hfk]
    simp
  -- entries of the key-index map point into the block at lines parsing to their key
  have hmem : ∀ p ∈ keyIdx, p.2 < block.length ∧
      Setup.parsedKey (block.getD p.2 []) = some p.1 ∧ (values p.1).isSome = true := by
    intro p hp
    rcases buildFrom_mem values block 0 [] p (by rwa [hkeyIdx, Setup.buildKeyIndices] at hp)
      with hin | ⟨_, h2, h3, h4⟩
    · exact absurd hin (by simp)
    · exact ⟨by simpa using h2, by simpa using h3, h4⟩
  have hbound : ∀ p ∈ keyIdx, p.2 < block.length := fun p hp => (hmem p hp).1
  -- only `k` can be recorded at `i₀`
  have huniq : ∀ key, Setup.lookupIdx key keyIdx = some i₀ → key = k := by
    intro key hkey
    have h1 := (hmem (key, i₀) (lookupIdx_mem key keyIdx i₀ hkey)).2.1
    rw [hi₀parse] at h1
    exact (Option.some_inj.mp h1).symm
  refine ⟨i₀, applySets block keyIdx values ordered, appendsOf keyIdx values ordered,
    hfk, fun j hj => hi₀first j hj, ?_, applySets_length values keyIdx ordered block,
    ?_, ?_, rfl, by simp [hlk]⟩
  · have := apply_decomp values keyIdx ordered block [] hbound
    rw [List.append_nil] at this
    rw [this]
    simp [appendsOf]
  · exact applySets_getD_eq values keyIdx i₀ k ordered block hk hlk hi₀len
      (fun key _ hkey => huniq key hkey)
  · intro j hjlen hjne hjparse
    refine applySets_getD_of_ne values keyIdx j ordered block ?_
    intro key _ hkey
    have h1 := (hmem (key, j) (lookupIdx_mem key keyIdx j hkey)).2.1
    rw [hjparse] at h1
    have : key = k := (Option.some_inj.mp h1).symm
    subst this
    rw [hlk] at hkey
    exact hjne (Option.some_inj.mp hkey.symm) |>.elim

/-- C10 witness: the theorem at a block holding two `modrinth` lines. -/
theorem c10_witness :
    ∃ i₀ core appended,
      firstKeyIdx? "modrinth".data
        ["modrinth = \"a\"".data, "x = 1".data, "modrinth = \"b\"".data] = some i₀ ∧
      (∀ j, j < i₀ →
        Setup.parsedKey
          (["modrinth = \"a\"".data, "x = 1".data, "modrinth = \"b\"".data].getD j []) ≠
          some "modrinth".data) ∧
      Setup.applyOrderedKeys
          ["modrinth = \"a\"".data, "x = 1".data, "modrinth = \"b\"".data]
          (Setup.buildKeyIndices
            ["modrinth = \"a\"".data, "x = 1".data, "modrinth = \"b\"".data] valsDup)
          valsDup ["modrinth".data]
        = core ++ appended ∧
      core.length =
        ["modrinth = \"a\"".data, "x = 1".data, "modrinth = \"b\"".data].length ∧
      core.getD i₀ [] = Setup.mkKVLine valsDup "modrinth".data ∧
      (∀ j, j < ["modrinth = \"a\"".data, "x = 1".data, "modrinth = \"b\"".data].length →
        j ≠ i₀ →
        Setup.parsedKey
          (["modrinth = \"a\"".data, "x = 1".data, "modrinth = \"b\"".data].getD j []) =
          some "modrinth".data →
        core.getD j [] =
          ["modrinth = \"a\"".data, "x = 1".data, "modrinth = \"b\"".data].getD j []) ∧
      appended = (["modrinth".data].filter
        (fun key =>
          (Setup.lookupIdx key (Setup.buildKeyIndices
            ["modrinth = \"a\"".data, "x = 1".data, "modrinth = \"b\"".data]
            valsDup)).isNone)).map
        (Setup.mkKVLine valsDup) ∧
      (Setup.lookupIdx "modrinth".data (Setup.buildKeyIndices
        ["modrinth = \"a\"".data, "x = 1".data, "modrinth = \"b\"".data]
        valsDup)).isNone = false :=
  c10_theorem ["modrinth = \"a\"".data, "x = 1".data, "modrinth = \"b\"".data]
    valsDup ["modrinth".data] "modrinth".data (by decide) (by decide) (by decide)

/-! ### Splitlines lemmas -/

theorem consLine_flatten (c : Char) (L : List Chars) :
    (consLine c L).flatten = c :: L.flatten := by
  cases L <;> simp [consLine]

theorem consLine_ne_nil (c : Char) (L : List Chars) : consLine c L ≠ [] := by
  cases L <;> simp [consLine]

theorem char_ne_of_nonbreak {c : Char} (h : isLineBreak c = false) :
    c ≠ '\n' ∧ c ≠ '\r' := by
  constructor <;> intro hc <;> subst hc <;> simp [isLineBreak] at h

theorem pySL_nl (t : Chars) : pySL ('\n' :: t) = [] :: pySL t := rfl

theorem pySL_cons_nonbreak {c : Char} (t : Chars) (h : isLineBreak c = false) :
    pySL (c :: t) = consLine c (pySL t) := by
  obtain ⟨hn, hr⟩ := char_ne_of_nonbreak h
  simp [pySL, pySLGo, hn, hr, h]

theorem pySL_eq_nil_iff (t : Chars) : pySL t = [] ↔ t = [] := by
  cases t with
  | nil => simp [pySL, pySLGo]
  | cons c rest =>
    simp only [pySL, pySLGo]
    constructor
    · intro h
      by_cases hn : c = '\n'
      · rw [if_pos hn] at h; simp at h
      · rw [if_neg hn] at h
        by_cases hr : c = '\r'
        · rw [if_pos hr] at h; simp at h
        · rw [if_neg hr] at h
          by_cases hb : isLineBreak c = true
          · rw [if_pos hb] at h; simp at h
          · rw [if_neg hb] at h; exact absurd h (consLine_ne_nil _ _)
    · intro h; exact absurd h (by simp)

theorem pySLGo_no_break :
    ∀ (t : Chars) (b : Bool), ∀ l ∈ pySLGo b t, ∀ c ∈ l, isLineBreak c = false := by
  intro t
  induction t with
  | nil => intro b l hl; simp [pySLGo] at hl
  | cons c rest ih =>
    intro b l hl
    simp only [pySLGo] at hl
    by_cases hn : c = '\n'
    · rw [if_pos hn] at hl
      by_cases hb : b = true
      · rw [if_pos hb] at hl; exact ih false l hl
      · rw [if_neg hb] at hl
        rcases List.mem_cons.mp hl with rfl | hl'
        · intro c' hc'; simp at hc'
        · exact ih false l hl'
    · rw [if_neg hn] at hl
      by_cases hr : c = '\r'
      · rw [if_pos hr] at hl
        rcases List.mem_cons.mp hl with rfl | hl'
        · intro c' hc'; simp at hc'
        · exact ih true l hl'
      · rw [if_neg hr] at hl
        by_cases hb : isLineBreak c = true
        · rw [if_pos hb] at hl
          rcases List.mem_cons.mp hl with rfl | hl'
          · intro c' hc'; simp at hc'
          · exact ih false l hl'
        · rw [if_neg hb] at hl
          have hbf : isLineBreak c = false := by
            rcases Bool.eq_false_or_eq_true (isLineBreak c) with ht | hf
            · exact absurd ht hb
            · exact hf
          cases hL : pySLGo false rest with
          | nil =>
            rw [hL] at hl
            simp only [consLine] at hl
            rcases List.mem_singleton.mp hl with rfl
            intro c' hc'
            rcases List.mem_singleton.mp hc' with rfl
            exact hbf
          | cons l0 ls =>
            rw [hL] at hl
            simp only [consLine] at hl
            rcases List.mem_cons.mp hl with rfl | hl'
            · intro c' hc'
              rcases List.mem_cons.mp hc' with rfl | hc''
              · exact hbf
              · exact ih false l0 (by rw [hL]; simp) c' hc''
            · exact fun c' hc' =>
                ih false l (by rw [hL]; exact List.mem_cons_of_mem _ hl') c' hc'

theorem pySL_no_break (t : Chars) : ∀ l ∈ pySL t, ∀ c ∈ l, isLineBreak c = false :=
  pySLGo_no_break t false

theorem pySL_append_nl (a : Chars) (rest : Chars)
    (h : ∀ c ∈ a, isLineBreak c = false) :
    pySL (a ++ '\n' :: rest) = a :: pySL rest := by
  induction a with
  | nil => simpa using pySL_nl rest
  | cons c a' ih =>
    have hc : isLineBreak c = false := h c (by simp)
    rw [List.cons_append, pySL_cons_nonbreak _ hc,
      ih (fun c' hc' => h c' (by simp [hc']))]
    rfl

theorem joinLines_append (a b : List Chars) :
    joinLines (a ++ b) = joinLines a ++ joinLines b := by
  simp [joinLines]

theorem joinLines_roundtrip :
    ∀ ls : List Chars, (∀ l ∈ ls, ∀ c ∈ l, isLineBreak c = false) →
      pySL (joinLines ls) = ls := by
  intro ls
  induction ls with
  | nil => intro _; rfl
  | cons x rest ih =>
    intro h
    have hx : joinLines (x :: rest) = x ++ '\n' :: joinLines rest := by
      simp [joinLines]
    rw [hx, pySL_append_nl x _ (h x (by simp)),
      ih (fun l hl => h l (by simp [hl]))]

theorem joinNL_eq_joinLines : ∀ ls : List Chars, ls ≠ [] → joinNL ls = joinLines ls := by
  intro ls
  induction ls with
  | nil => intro h; exact absurd rfl h
  | cons x rest ih =>
    intro _
    cases rest with
    | nil => simp [joinNL, joinSep, joinLines]
    | cons y ys =>
      have := ih (by simp)
      simp only [joinNL, joinSep] at this ⊢
      rw [show joinLines (x :: y :: ys) = (x ++ ['\n']) ++ joinLines (y :: ys) by
        simp [joinLines]]
      rw [← this]
      simp [joinNL]

theorem joinSep_cons (sep x : Chars) (L : List Chars) (h : L ≠ []) :
    joinSep sep (x :: L) = x ++ sep ++ joinSep sep L := by
  cases L with
  | nil => exact absurd rfl h
  | cons y ys => rfl

theorem joinSep_append_nl :
    ∀ (a b : List Chars), a ≠ [] → b ≠ [] →
      joinSep ['\n'] (a ++ b) = joinSep ['\n'] a ++ ['\n'] ++ joinSep ['\n'] b := by
  intro a
  induction a with
  | nil => intro b h; exact absurd rfl h
  | cons x rest ih =>
    intro b _ hb
    cases rest with
    | nil =>
      rw [List.singleton_append, joinSep_cons _ _ _ hb]
      simp [joinSep]
    | cons y ys =>
      rw [List.cons_append, joinSep_cons ['\n'] x ((y :: ys) ++ b) (by simp),
        ih b (by simp) hb, joinSep_cons ['\n'] x (y :: ys) (by simp)]
      simp [List.append_assoc]

theorem getLast?_cons_ne_nil (c : Char) (cs : Chars) (h : cs ≠ []) :
    (c :: cs).getLast? = cs.getLast? := by
  cases cs with
  | nil => exact absurd rfl h
  | cons d ds => exact List.getLast?_cons_cons

theorem joinSep_cons_head (sep : Chars) (c : Char) (l : Chars) (ls : List Chars) :
    joinSep sep ((c :: l) :: ls) = c :: joinSep sep (l :: ls) := by
  cases ls <;> simp [joinSep]

theorem text_roundtrip_nl :
    ∀ (n : Nat) (t : Chars), t.length ≤ n →
      (∀ c ∈ t, isLineBreak c = true → c = '\n') →
      (t = [] ∨ t.getLast? = some '\n') →
      joinLines (pySL t) = t := by
  intro n
  induction n with
  | zero =>
    intro t ht _ _
    have : t = [] := by
      cases t with
      | nil => rfl
      | cons c cs => simp at ht
    rw [this]; rfl
  | succ n ih =>
    intro t ht honly hlast
    cases t with
    | nil => rfl
    | cons c cs =>
      rcases hlast with h | hlast
      · exact absurd h (by simp)
      by_cases hc : c = '\n'
      · subst hc
        rw [pySL_nl]
        have hcs : joinLines (pySL cs) = cs := by
          refine ih cs (by simpa using ht) (fun c' hc' hb => honly c' (by simp [hc']) hb) ?_
          cases hcse : cs with
          | nil => exact Or.inl rfl
          | cons d ds =>
            right
            rw [← hcse, ← getLast?_cons_ne_nil '\n' cs (by simp [hcse])]
            exact hlast
        rw [show joinLines ([] :: pySL cs) = '\n' :: joinLines (pySL cs) by
          simp [joinLines]]
        rw [hcs]
      · have hcb : isLineBreak c = false := by
          rcases Bool.eq_false_or_eq_true (isLineBreak c) with ht' | hf
          · exact absurd (honly c (by simp) ht') hc
          · exact hf
        rw [pySL_cons_nonbreak cs hcb]
        cases hcsl : pySL cs with
        | nil =>
          have hcse : cs = [] := (pySL_eq_nil_iff cs).mp hcsl
          subst hcse
          simp at hlast
          exact absurd hlast hc
        | cons l ls =>
          have hcsne : cs ≠ [] := by
            intro hx
            rw [hx] at hcsl
            exact absurd hcsl.symm (by simp [pySL, pySLGo])
          have hcs : joinLines (pySL cs) = cs := by
            refine ih cs (by simpa using ht)
              (fun c' hc' hb => honly c' (by simp [hc']) hb) ?_
            right
            rw [← getLast?_cons_ne_nil c cs hcsne]
            exact hlast
          rw [show consLine c (l :: ls) = (c :: l) :: ls from rfl]
          rw [show joinLines ((c :: l) :: ls) = c :: joinLines (l :: ls) by
            simp [joinLines]]
          rw [← hcsl, hcs]

theorem text_roundtrip_nonl :
    ∀ (n : Nat) (t : Chars), t.length ≤ n →
      (∀ c ∈ t, isLineBreak c = true → c = '\n') →
      t ≠ [] →
      ¬(t.getLast? = some '\n') →
      joinSep ['\n'] (pySL t) = t := by
  intro n
  induction n with
  | zero =>
    intro t ht _ hne _
    cases t with
    | nil => exact absurd rfl hne
    | cons c cs => simp at ht
  | succ n ih =>
    intro t ht honly hne hlast
    cases t with
    | nil => exact absurd rfl hne
    | cons c cs =>
      by_cases hc : c = '\n'
      · subst hc
        have hcsne : cs ≠ [] := by
          intro hx
          subst hx
          exact hlast (by simp)
        rw [pySL_nl]
        have hpne : pySL cs ≠ [] := by
          intro hx
          exact hcsne ((pySL_eq_nil_iff cs).mp hx)
        rw [joinSep_cons ['\n'] [] (pySL cs) hpne]
        rw [ih cs (by simpa using ht) (fun c' hc' hb => honly c' (by simp [hc']) hb)
          hcsne (by rw [← getLast?_cons_ne_nil '\n' cs hcsne]; exact hlast)]
        rfl
      · have hcb : isLineBreak c = false := by
          rcases Bool.eq_false_or_eq_true (isLineBreak c) with ht' | hf
          · exact absurd (honly c (by simp) ht') hc
          · exact hf
        rw [pySL_cons_nonbreak cs hcb]
        cases hcsl : pySL cs with
        | nil =>
          have hcse : cs = [] := (pySL_eq_nil_iff cs).mp hcsl
          subst hcse
          rfl
        | cons l ls =>
          have hcsne : cs ≠ [] := by
            intro hx
            rw [hx] at hcsl
            exact absurd hcsl.symm (by simp [pySL, pySLGo])
          rw [show consLine c (l :: ls) = (c :: l) :: ls from rfl,
            joinSep_cons_head ['\n'] c l ls, ← hcsl]
          rw [ih cs (by simpa using ht) (fun c' hc' hb => honly c' (by simp [hc']) hb)
            hcsne (by rw [← getLast?_cons_ne_nil c cs hcsne]; exact hlast)]

theorem pySLKeepGo_flatten :
    ∀ (t : Chars) (b : Bool),
      (pySLKeepGo b t).flatten = (if b then ['\r'] else []) ++ t := by
  intro t
  induction t with
  | nil => intro b; cases b <;> simp [pySLKeepGo]
  | cons c rest ih =>
    intro b
    simp only [pySLKeepGo]
    by_cases hn : c = '\n'
    · subst hn
      rw [if_pos rfl]
      cases b
      · simp [ih false]
      · simp [ih false]
    · rw [if_neg hn]
      by_cases hr : c = '\r'
      · subst hr
        simp only [if_pos rfl]
        cases b
        · simpa using ih true
        · simpa using ih true
      · rw [if_neg hr]
        by_cases hb : isLineBreak c = true
        · rw [if_pos hb]
          cases b
          · simpa using ih false
          · simpa using ih false
        · rw [if_neg hb]
          cases b
          · simp [consLine_flatten, ih false]
          · simp [consLine_flatten, ih false]

/-- Re-joining the keepends split always reproduces the document bytes. -/
theorem pySLKeep_flatten (t : Chars) : (pySLKeep t).flatten = t := by
  simpa using pySLKeepGo_flatten t false

theorem pySLKeep_nl (t : Chars) : pySLKeep ('\n' :: t) = ['\n'] :: pySLKeep t := rfl

theorem pySLKeep_cons_nonbreak {c : Char} (t : Chars) (h : isLineBreak c = false) :
    pySLKeep (c :: t) = consLine c (pySLKeep t) := by
  obtain ⟨hn, hr⟩ := char_ne_of_nonbreak h
  simp [pySLKeep, pySLKeepGo, hn, hr, h]

theorem pySLKeep_eq_map :
    ∀ (n : Nat) (t : Chars), t.length ≤ n →
      (∀ c ∈ t, isLineBreak c = true → c = '\n') →
      (t = [] ∨ t.getLast? = some '\n') →
      pySLKeep t = (pySL t).map (fun l => l ++ ['\n']) := by
  intro n
  induction n with
  | zero =>
    intro t ht _ _
    have : t = [] := by
      cases t with
      | nil => rfl
      | cons c cs => simp at ht
    rw [this]; rfl
  | succ n ih =>
    intro t ht honly hlast
    cases t with
    | nil => rfl
    | cons c cs =>
      rcases hlast with h | hlast
      · exact absurd h (by simp)
      by_cases hc : c = '\n'
      · subst hc
        rw [pySLKeep_nl, pySL_nl]
        have hcs := ih cs (by simpa using ht)
          (fun c' hc' hb => honly c' (by simp [hc']) hb)
          (by
            cases hcse : cs with
            | nil => exact Or.inl rfl
            | cons d ds =>
              right
              rw [← hcse, ← getLast?_cons_ne_nil '\n' cs (by simp [hcse])]
              exact hlast)
        rw [hcs]
        rfl
      · have hcb : isLineBreak c = false := by
          rcases Bool.eq_false_or_eq_true (isLineBreak c) with ht' | hf
          · exact absurd (honly c (by simp) ht') hc
          · exact hf
        rw [pySLKeep_cons_nonbreak cs hcb, pySL_cons_nonbreak cs hcb]
        cases hcsl : pySL cs with
        | nil =>
          have hcse : cs = [] := (pySL_eq_nil_iff cs).mp hcsl
          subst hcse
          simp at hlast
          exact absurd hlast hc
        | cons l ls =>
          have hcsne : cs ≠ [] := by
            intro hx
            rw [hx] at hcsl
            exact absurd hcsl.symm (by simp [pySL, pySLGo])
          have hcs := ih cs (by simpa using ht)
            (fun c' hc' hb => honly c' (by simp [hc']) hb)
            (Or.inr (by rw [← getLast?_cons_ne_nil c cs hcsne]; exact hlast))
          rw [hcs, hcsl]
          rfl

theorem firstOwnerIdx?_spec :
    ∀ (ls : List Chars) (s : Nat), firstOwnerIdx? ls = some s →
      s < ls.length ∧ isOwnerHeader (ls.getD s []) = true ∧
        ∀ j, j < s → isOwnerHeader (ls.getD j []) = false := by
  intro ls
  induction ls with
  | nil => intro s h; exact absurd h (by simp [firstOwnerIdx?])
  | cons l rest ih =>
    intro s h
    by_cases ho : isOwnerHeader l = true
    · simp only [firstOwnerIdx?, if_pos ho] at h
      obtain rfl : s = 0 := by simpa using h.symm
      exact ⟨by simp, by simpa using ho, by omega⟩
    · simp only [firstOwnerIdx?, if_neg ho] at h
      cases hr : firstOwnerIdx? rest with
      | none => rw [hr] at h; exact absurd h (by simp)
      | some s' =>
        rw [hr] at h
        obtain rfl : s = s' + 1 := by simpa using h.symm
        obtain ⟨h1, h2, h3⟩ := ih s' hr
        refine ⟨by simpa using Nat.succ_lt_succ h1, by simpa using h2, ?_⟩
        intro j hj
        cases j with
        | zero => simpa using ho
        | succ j => simpa using h3 j (by omega)

theorem firstOwnerIdx?_none_iff (ls : List Chars) :
    firstOwnerIdx? ls = none ↔ ∀ l ∈ ls, isOwnerHeader l = false := by
  induction ls with
  | nil => simp [firstOwnerIdx?]
  | cons l rest ih =>
    by_cases ho : isOwnerHeader l = true
    · simp [firstOwnerIdx?, ho]
    · have ho' : isOwnerHeader l = false := by
        rcases Bool.eq_false_or_eq_true (isOwnerHeader l) with ht | hf
        · exact absurd ht ho
        · exact hf
      simp only [firstOwnerIdx?, if_neg ho]
      rw [Option.map_eq_none', ih]
      constructor
      · intro h x hx
        rcases List.mem_cons.mp hx with rfl | hx'
        · exact ho'
        · exact h x hx'
      · intro h x hx
        exact h x (by simp [hx])

theorem take_ne_nil_of_lt (l : List Chars) (n : Nat) (h : 0 < n) (hl : l ≠ []) :
    l.take n ≠ [] := by
  cases l with
  | nil => exact absurd rfl hl
  | cons x xs =>
    cases n with
    | zero => omega
    | succ n => simp

theorem take_succ_getD (l : List Chars) (n : Nat) (h : n < l.length) :
    l.take (n + 1) = l.take n ++ [l.getD n []] := by
  rw [List.take_succ]
  congr 1
  cases hg : l[n]? with
  | none => rw [List.getElem?_eq_none_iff] at hg; omega
  | some x =>
    have hx : l.getD n [] = x := by
      show (l.get? n).getD [] = x
      rw [List.get?_eq_getElem?, hg]
      rfl
    rw [hx]
    rfl

theorem getD_append_right (a b : List Chars) (m : Nat) :
    (a ++ b).getD (a.length + m) [] = b.getD m [] := by
  show ((a ++ b).get? (a.length + m)).getD [] = (b.get? m).getD []
  rw [List.get?_eq_getElem?, List.get?_eq_getElem?,
    List.getElem?_append_right (by omega),
    show a.length + m - a.length = m from by omega]

/-! ### Claim C2 -/

/-- C2 (amended): for documents whose only line-break character is `\n`, the
rewrite output reproduces, byte for byte, every line outside the located
fragment's range: when the fragment is present at lines `[s, e)` and the
document ends with a newline, the output is (bytes of lines before `s`) ++
(new middle) ++ (bytes of lines from `e` on), with the document decomposing
over the same prefix and suffix; when the fragment is absent the original
text is an exact prefix and the new table is strictly appended. -/
theorem c2_theorem (text : Chars) (values : Chars → Option Chars)
    (ordered : List Chars) (o : Chars) (c : Bool)
    (hupd : Setup.update_mc_publish_block text values ordered = some (o, c))
    (honly : ∀ ch ∈ text, isLineBreak ch = true → ch = '\n') :
    (∀ s e, Setup.locateFragment text = some (s, e) →
      text.getLast? = some '\n' →
      ∃ mid midOrig,
        o = ((pySLKeep text).take s).flatten ++ mid ++
          ((pySLKeep text).drop e).flatten ∧
        text = ((pySLKeep text).take s).flatten ++ midOrig ++
          ((pySLKeep text).drop e).flatten) ∧
    (Setup.locateFragment text = none → ∃ a, a ≠ [] ∧ o = text ++ a) := by
  rw [Setup.update_mc_publish_block] at hupd
  split at hupd
  · exact absurd hupd (by simp)
  · constructor
    · intro s e hloc hlast
      have hKmap : pySLKeep text = (pySL text).map (fun l => l ++ ['\n']) :=
        pySLKeep_eq_map text.length text (le_refl _) honly (Or.inr hlast)
      obtain ⟨sf, hsf⟩ : ∃ sf, firstOwnerIdx? (pySL text) = some sf := by
        cases hf : firstOwnerIdx? (pySL text) with
        | none => simp [Setup.locateFragment, hf] at hloc
        | some sf => exact ⟨sf, rfl⟩
      have hse : s = sf ∧
          e = sf + 1 + boundaryOffset ((pySL text).drop (sf + 1)) := by
        simp [Setup.locateFragment, hsf] at hloc
        exact ⟨hloc.1.symm, hloc.2.symm⟩
      obtain ⟨rfl, rfl⟩ := hse
      simp only [hsf, Option.some.injEq, Prod.mk.injEq] at hupd
      obtain ⟨ho, -⟩ := hupd
      set L := pySL text with hL
      set e := s + 1 + boundaryOffset (L.drop (s + 1)) with he
      set blk := Setup.applyOrderedKeys
        ((L.drop (s + 1)).take (e - (s + 1)))
        (Setup.buildKeyIndices ((L.drop (s + 1)).take (e - (s + 1))) values)
        values ordered with hblk
      obtain ⟨hsfl, -, -⟩ := firstOwnerIdx?_spec L s hsf
      have htext : joinLines L = text :=
        text_roundtrip_nl text.length text (le_refl _) honly (Or.inr hlast)
      have hPfx : ((pySLKeep text).take s).flatten = joinLines (L.take s) := by
        rw [hKmap, ← List.map_take]
        rfl
      have hSfx : ((pySLKeep text).drop e).flatten = joinLines (L.drop e) := by
        rw [hKmap, ← List.map_drop]
        rfl
      have hne : L.take (s + 1) ++ blk ++ L.drop e ≠ [] := by
        intro hx
        have h1 : L.take (s + 1) = [] :=
          (List.append_eq_nil.mp (List.append_eq_nil.mp hx).1).1
        exact take_ne_nil_of_lt L (s + 1) (by omega)
          (by intro hLnil; rw [hLnil] at hsfl; simp at hsfl) h1
      have hoL : o = joinLines (L.take s) ++
          (joinLines [L.getD s []] ++ joinLines blk) ++ joinLines (L.drop e) := by
        rw [← ho, joinNL_eq_joinLines _ hne, joinLines_append, joinLines_append,
          take_succ_getD L s hsfl, joinLines_append]
        simp [List.append_assoc]
      have htextd : text = joinLines (L.take s) ++
          joinLines ((L.drop s).take (e - s)) ++ joinLines (L.drop e) := by
        conv_lhs => rw [← htext, ← List.take_append_drop s L]
        rw [joinLines_append,
          ← List.take_append_drop (e - s) (L.drop s), joinLines_append,
          List.take_append_drop, List.drop_drop,
          show s + (e - s) = e from by omega]
        simp [List.append_assoc]
      exact ⟨joinLines [L.getD s []] ++ joinLines blk,
        joinLines ((L.drop s).take (e - s)),
        by rw [hPfx, hSfx, hoL], by rw [hPfx, hSfx]; exact htextd⟩
    · intro hloc
      have hsf : firstOwnerIdx? (pySL text) = none := by
        cases hf : firstOwnerIdx? (pySL text) with
        | none => rfl
        | some sf => simp [Setup.locateFragment, hf] at hloc
      simp only [hsf, Option.some.injEq, Prod.mk.injEq] at hupd
      obtain ⟨ho, -⟩ := hupd
      set L := pySL text with hL
      by_cases hLnil : L = []
      · have htextnil : text = [] := (pySL_eq_nil_iff text).mp (by rw [← hL, hLnil])
        rw [hLnil] at ho
        refine ⟨o, ?_, by rw [htextnil]; rfl⟩
        rw [← ho]
        simp [joinNL]
      · have hbase : ∃ rest, rest ≠ [] ∧
            ((if !L.isEmpty ∧ !(pyStrip (L.getLastD [])).isEmpty
              then L ++ [[]] else L) ++ Setup.build_mc_publish_block values ordered)
            = L ++ rest := by
          by_cases hcond : !L.isEmpty ∧ !(pyStrip (L.getLastD [])).isEmpty
          · exact ⟨[] :: Setup.build_mc_publish_block values ordered, by simp,
              by rw [if_pos hcond]; simp⟩
          · exact ⟨Setup.build_mc_publish_block values ordered,
              by simp [Setup.build_mc_publish_block],
              by rw [if_neg hcond]⟩
        obtain ⟨rest, hrestne, hresteq⟩ := hbase
        rw [hresteq] at ho
        have hosplit : o = (joinSep ['\n'] L ++ ['\n']) ++
            (joinSep ['\n'] rest ++ ['\n']) := by
          rw [← ho, joinNL, joinSep_append_nl L rest hLnil hrestne]
          simp [List.append_assoc]
        by_cases hlast : text.getLast? = some '\n'
        · have htext : joinSep ['\n'] L ++ ['\n'] = text := by
            have h1 : joinNL L = joinLines L := joinNL_eq_joinLines L hLnil
            have h2 : joinLines L = text :=
              text_roundtrip_nl text.length text (le_refl _) honly (Or.inr hlast)
            rw [← h2, ← h1]
            rfl
          exact ⟨joinSep ['\n'] rest ++ ['\n'], by simp,
            by rw [hosplit, htext]⟩
        · have htextne : text ≠ [] := by
            intro hx
            rw [hx] at hL
            exact hLnil (by rw [hL]; rfl)
          have htext : joinSep ['\n'] L = text :=
            text_roundtrip_nonl text.length text (le_refl _) honly htextne hlast
          refine ⟨'\n' :: (joinSep ['\n'] rest ++ ['\n']), by simp, ?_⟩
          rw [hosplit, ← htext]
          simp

/-- C2 counterexample: three documents on which the rewrite changes bytes
outside the fragment's line range.  `docCrlf` (CRLF terminators, fragment
present): the suffix line `[other]\r\n` is not reproduced (every CRLF becomes
`\n`).  `docCrlfAbsent` (CRLF, fragment absent): the original text is not a
prefix of the output.  `docNoTrail` (no trailing newline): the final line `y`
outside the fragment gains a newline. -/
theorem c2_counterexample :
    (Setup.locateFragment docCrlf = some (0, 1) ∧
      Setup.update_mc_publish_block docCrlf valsModrinth ["modrinth".data] =
        some ("[mc-publish]\nmodrinth = \"x\"\n[other]\n".data, true) ∧
      ¬∃ mid, "[mc-publish]\nmodrinth = \"x\"\n[other]\n".data =
        ((pySLKeep docCrlf).take 0).flatten ++ mid ++
          ((pySLKeep docCrlf).drop 1).flatten) ∧
    (Setup.locateFragment docCrlfAbsent = none ∧
      Setup.update_mc_publish_block docCrlfAbsent valsModrinth ["modrinth".data] =
        some ("a\n\n[mc-publish]\nmodrinth = \"x\"\n".data, true) ∧
      ¬∃ a, a ≠ [] ∧ "a\n\n[mc-publish]\nmodrinth = \"x\"\n".data =
        docCrlfAbsent ++ a) ∧
    (Setup.locateFragment docNoTrail = some (0, 2) ∧
      Setup.update_mc_publish_block docNoTrail valsModrinth ["modrinth".data] =
        some ("[mc-publish]\nx = 1\nmodrinth = \"x\"\n[other]\ny\n".data, true) ∧
      ¬∃ mid, "[mc-publish]\nx = 1\nmodrinth = \"x\"\n[other]\ny\n".data =
        ((pySLKeep docNoTrail).take 0).flatten ++ mid ++
          ((pySLKeep docNoTrail).drop 2).flatten) := by
  refine ⟨⟨by decide, rfl, ?_⟩, ⟨by decide, rfl, ?_⟩, ⟨by decide, rfl, ?_⟩⟩
  · rintro ⟨mid, hmid⟩
    rw [show ((pySLKeep docCrlf).take 0).flatten = ([] : Chars) from rfl,
      show ((pySLKeep docCrlf).drop 1).flatten = "[other]\r\n".data from by decide]
      at hmid
    have hr : '\r' ∈ "[mc-publish]\nmodrinth = \"x\"\n[other]\n".data := by
      rw [hmid]
      exact List.mem_append.mpr (Or.inr (by decide))
    exact absurd hr (by decide)
  · rintro ⟨a, -, ha⟩
    have h2 := congrArg (List.take 2) ha
    rw [show List.take 2 (docCrlfAbsent ++ a) = ['a', '\r'] from rfl] at h2
    exact absurd h2 (by decide)
  · rintro ⟨mid, hmid⟩
    rw [show ((pySLKeep docNoTrail).take 0).flatten = ([] : Chars) from rfl,
      show ((pySLKeep docNoTrail).drop 2).flatten = "[other]\ny".data from by decide]
      at hmid
    have hy : ("[mc-publish]\nx = 1\nmodrinth = \"x\"\n[other]\ny\n".data).getLast? =
        some 'y' := by
      rw [hmid, List.getLast?_append_of_ne_nil _ (by decide)]
      decide
    exact absurd hy (by decide)

/-- C2 witness: the amended theorem at `docSimple` (fragment at lines `[0,2)`),
whose rewrite output keeps the bytes of lines 2 and 3 unchanged. -/
theorem c2_witness :
    ∃ mid midOrig,
      "[mc-publish]\nmodrinth = \"x\"\n[other]\nx = 1\n".data =
        ((pySLKeep docSimple).take 0).flatten ++ mid ++
          ((pySLKeep docSimple).drop 2).flatten ∧
      docSimple =
        ((pySLKeep docSimple).take 0).flatten ++ midOrig ++
          ((pySLKeep docSimple).drop 2).flatten :=
  (c2_theorem docSimple valsModrinth ["modrinth".data]
    "[mc-publish]\nmodrinth = \"x\"\n[other]\nx = 1\n".data true rfl
    (by decide)).1 0 2 rfl rfl

/-! ### Parse-stability lemmas for written lines -/

theorem wfKey_spec (key : Chars) (h : wfKeyB key = true) :
    ∃ c key', key = c :: key' ∧ isPySpace c = false ∧
      isPySpace (key.getLastD ' ') = false ∧ '#' ∉ key ∧ '=' ∉ key ∧
      (∀ ch ∈ key, isLineBreak ch = false) ∧ c ≠ '[' := by
  cases key with
  | nil => simp [wfKeyB] at h
  | cons c key' =>
    simp only [wfKeyB, Bool.and_eq_true, Bool.not_eq_true', decide_eq_false_iff_not,
      List.all_eq_true, Bool.not_eq_true] at h
    obtain ⟨⟨⟨⟨⟨h1, h2⟩, h3⟩, h4⟩, h5⟩, h6⟩ := h
    exact ⟨c, key', rfl, h1, h2, h3, h4, fun ch hch => by
      have := h5 ch hch
      simpa using this, h6⟩

theorem takeUntil_not_mem (stop : Char) :
    ∀ s : Chars, stop ∉ s → takeUntil stop s = s := by
  intro s
  induction s with
  | nil => intro _; rfl
  | cons c cs ih =>
    intro h
    have hc : c ≠ stop := by
      intro hc; exact h (by simp [hc])
    simp [takeUntil, hc, ih (fun hx => h (by simp [hx]))]

theorem takeUntil_append_left (stop : Char) :
    ∀ (a b : Chars), stop ∉ a → takeUntil stop (a ++ b) = a ++ takeUntil stop b := by
  intro a
  induction a with
  | nil => intro b _; rfl
  | cons c cs ih =>
    intro b h
    have hc : c ≠ stop := by
      intro hc; exact h (by simp [hc])
    simp [takeUntil, hc, ih b (fun hx => h (by simp [hx]))]

theorem dropWhile_cons_of_neg (c : Char) (rest : Chars) (h : isPySpace c = false) :
    (c :: rest).dropWhile isPySpace = c :: rest := by
  simp [List.dropWhile_cons, h]

theorem pyStrip_append_space (key : Chars) (hk : wfKeyB key = true) :
    pyStrip (key ++ [' ']) = key := by
  obtain ⟨c, key', rfl, h1, h2, -, -, -, -⟩ := wfKey_spec key hk
  unfold pyStrip
  rw [show (c :: key') ++ [' '] = c :: (key' ++ [' ']) from rfl,
    dropWhile_cons_of_neg c _ h1]
  rw [show (c :: (key' ++ [' '])).reverse = ' ' :: (c :: key').reverse by simp]
  rw [show List.dropWhile isPySpace (' ' :: (c :: key').reverse) =
    List.dropWhile isPySpace ((c :: key').reverse) by
      rw [List.dropWhile_cons, if_pos (by decide : (isPySpace ' ') = true)]]
  cases hrev : (c :: key').reverse with
  | nil => exact absurd hrev (by simp)
  | cons d ds =>
    have hd : isPySpace d = false := by
      have hh : (c :: key').getLast? = some d := by
        rw [← List.head?_reverse, hrev]
        rfl
      have : (c :: key').getLastD ' ' = d := by
        rw [List.getLastD_eq_getLast?, hh]
        rfl
      rwa [this] at h2
    rw [dropWhile_cons_of_neg d ds hd, ← hrev]
    simp

theorem stripped_mkKV (values : Chars → Option Chars) (key : Chars)
    (hk : wfKeyB key = true) :
    ∃ t, strip_inline_comment (Setup.mkKVLine values key) =
      key ++ ' ' :: '=' :: t := by
  obtain ⟨c, key', hkey, h1, -, h3, -, -, -⟩ := wfKey_spec key hk
  have hmk : Setup.mkKVLine values key =
      key ++ (' ' :: '=' :: ' ' ::
        Setup.format_toml_value key ((values key).getD [])) := by
    simp [Setup.mkKVLine]
  unfold strip_inline_comment
  rw [hmk, takeUntil_append_left '#' key _ h3]
  rw [show takeUntil '#' (' ' :: '=' :: ' ' ::
      Setup.format_toml_value key ((values key).getD [])) =
    ' ' :: '=' :: ' ' ::
      takeUntil '#' (Setup.format_toml_value key ((values key).getD [])) by
    simp [takeUntil]]
  set t' := takeUntil '#' (Setup.format_toml_value key ((values key).getD [])) with ht'
  unfold pyStrip
  rw [hkey, show (c :: key') ++ (' ' :: '=' :: ' ' :: t') =
    c :: (key' ++ (' ' :: '=' :: ' ' :: t')) from rfl,
    dropWhile_cons_of_neg c _ h1,
    show c :: (key' ++ (' ' :: '=' :: ' ' :: t')) =
      key ++ (' ' :: '=' :: ' ' :: t') from by rw [hkey]; rfl]
  rw [show (key ++ (' ' :: '=' :: ' ' :: t')).reverse =
    t'.reverse ++ (' ' :: '=' :: ' ' :: key.reverse) by simp]
  rw [List.dropWhile_append]
  by_cases hdw : (t'.reverse.dropWhile isPySpace).isEmpty = true
  · rw [if_pos hdw]
    rw [show List.dropWhile isPySpace (' ' :: '=' :: ' ' :: key.reverse) =
      '=' :: ' ' :: key.reverse by
        rw [List.dropWhile_cons, if_pos (by decide : (isPySpace ' ') = true),
          List.dropWhile_cons, if_neg (by decide : ¬(isPySpace '=') = true)]]
    exact ⟨[], by simp [hkey]⟩
  · rw [if_neg hdw]
    refine ⟨' ' :: (t'.reverse.dropWhile isPySpace).reverse, ?_⟩
    simp [hkey]

theorem parsedKey_mkKV (values : Chars → Option Chars) (key : Chars)
    (hk : wfKeyB key = true) :
    Setup.parsedKey (Setup.mkKVLine values key) = some key := by
  obtain ⟨t, hstr⟩ := stripped_mkKV values key hk
  obtain ⟨c, key', hkey, -, -, -, h4, -, -⟩ := wfKey_spec key hk
  unfold Setup.parsedKey
  rw [hstr]
  rw [if_pos (by
    rw [List.contains_eq_any_beq]
    simp)]
  rw [takeUntil_append_left '=' key _ h4,
    show takeUntil '=' (' ' :: '=' :: t) = [' '] by simp [takeUntil],
    pyStrip_append_space key hk]

theorem mkKV_not_header (values : Chars → Option Chars) (key : Chars)
    (hk : wfKeyB key = true) :
    is_table_header (Setup.mkKVLine values key) = false ∧
    isOwnerHeader (Setup.mkKVLine values key) = false ∧
    isBoundary (Setup.mkKVLine values key) = false := by
  obtain ⟨t, hstr⟩ := stripped_mkKV values key hk
  obtain ⟨c, key', hkey, -, -, -, -, -, h6⟩ := wfKey_spec key hk
  have hpre : isPrefixC "[".data (c :: (key' ++ ' ' :: '=' :: t)) = false := by
    show (if '[' = c then isPrefixC [] (key' ++ ' ' :: '=' :: t) else false) = false
    rw [if_neg (fun hx => h6 hx.symm)]
  have hth : is_table_header (Setup.mkKVLine values key) = false := by
    unfold is_table_header
    rw [hstr, hkey]
    show (isPrefixC "[".data (c :: (key' ++ ' ' :: '=' :: t)) &&
      isSuffixC "]".data (c :: (key' ++ ' ' :: '=' :: t))) = false
    rw [hpre]
    rfl
  refine ⟨hth, ?_, ?_⟩
  · unfold isOwnerHeader
    rw [hstr, hkey]
    refine decide_eq_false ?_
    intro hx
    have hc : c = '[' := by
      have := congrArg (fun l => l.headD ' ') hx
      simpa using this
    exact h6 hc
  · unfold isBoundary
    rw [hth]
    rfl

theorem replaceChar_mem (old : Char) (new : Chars) :
    ∀ (s : Chars) (ch : Char), ch ∈ replaceChar old new s → ch ∈ s ∨ ch ∈ new := by
  intro s
  induction s with
  | nil => intro ch h; simp [replaceChar] at h
  | cons c cs ih =>
    intro ch h
    simp only [replaceChar] at h
    rcases List.mem_append.mp h with h1 | h2
    · by_cases hc : c = old
      · rw [if_pos hc] at h1; exact Or.inr h1
      · rw [if_neg hc] at h1
        exact Or.inl (by simpa using Or.inl (List.mem_singleton.mp h1))
    · rcases ih ch h2 with h3 | h3
      · exact Or.inl (by simp [h3])
      · exact Or.inr h3

theorem format_no_break (key v : Chars) (hv : ∀ ch ∈ v, isLineBreak ch = false) :
    ∀ ch ∈ Setup.format_toml_value key v, isLineBreak ch = false := by
  intro ch hch
  unfold Setup.format_toml_value at hch
  split at hch
  · exact hv ch hch
  · rcases List.mem_cons.mp hch with rfl | hch'
    · decide
    · rcases List.mem_append.mp hch' with h1 | h2
      · rcases replaceChar_mem '"' ['\\', '"'] _ ch h1 with h3 | h3
        · rcases replaceChar_mem '\\' ['\\', '\\'] _ ch h3 with h4 | h4
          · exact hv ch h4
          · rcases List.mem_cons.mp h4 with rfl | h5
            · decide
            · rcases List.mem_singleton.mp h5 with rfl; decide
        · rcases List.mem_cons.mp h3 with rfl | h5
          · decide
          · rcases List.mem_singleton.mp h5 with rfl; decide
      · rcases List.mem_singleton.mp h2 with rfl; decide

theorem mkKV_no_break (values : Chars → Option Chars) (key : Chars)
    (hk : wfKeyB key = true)
    (hv : ∀ ch ∈ (values key).getD [], isLineBreak ch = false) :
    ∀ ch ∈ Setup.mkKVLine values key, isLineBreak ch = false := by
  obtain ⟨c, key', hkey, -, -, -, -, h5, -⟩ := wfKey_spec key hk
  intro ch hch
  have hmk : Setup.mkKVLine values key = key ++
      (" = ".data ++ Setup.format_toml_value key ((values key).getD [])) := by
    simp [Setup.mkKVLine]
  rw [hmk] at hch
  rcases List.mem_append.mp hch with h1 | h2
  · exact h5 ch h1
  · rcases List.mem_append.mp h2 with h3 | h4
    · have : ch = ' ' ∨ ch = '=' ∨ ch = ' ' := by simpa using h3
      rcases this with rfl | rfl | rfl <;> decide
    · exact format_no_break key _ hv ch h4

/-! ### Stability lemmas for the second rewrite pass -/

theorem set_getD_self : ∀ (l : List Chars) (i : Nat) (x : Chars),
    i < l.length → l.getD i [] = x → l.set i x = l := by
  intro l
  induction l with
  | nil => intro i x h; simp at h
  | cons a rest ih =>
    intro i x hlen hget
    cases i with
    | zero => simp at hget; simp [hget]
    | succ i =>
      simp only [List.set_cons_succ]
      rw [ih i x (by simpa using hlen) (by simpa using hget)]

theorem getD_mem : ∀ (l : List Chars) (j : Nat), j < l.length → l.getD j [] ∈ l := by
  intro l
  induction l with
  | nil => intro j h; simp at h
  | cons a rest ih =>
    intro j h
    cases j with
    | zero => simp
    | succ j => exact List.mem_cons_of_mem _ (ih j (by simpa using h))

theorem mem_take_pred (p : Chars → Bool) :
    ∀ (L : List Chars) (s : Nat), (∀ j, j < s → p (L.getD j []) = false) →
      ∀ l ∈ L.take s, p l = false := by
  intro L
  induction L with
  | nil => intro s _ l hl; simp at hl
  | cons a rest ih =>
    intro s h l hl
    cases s with
    | zero => simp at hl
    | succ s =>
      rcases List.mem_cons.mp (by simpa using hl) with rfl | hl'
      · simpa using h 0 (by omega)
      · exact ih s (fun j hj => by simpa using h (j + 1) (by omega)) l hl'

theorem firstOwnerIdx?_append :
    ∀ (a b : List Chars), (∀ l ∈ a, isOwnerHeader l = false) →
      firstOwnerIdx? (a ++ b) = (firstOwnerIdx? b).map (· + a.length) := by
  intro a
  induction a with
  | nil => intro b _; simp [Option.map_id']
  | cons x rest ih =>
    intro b h
    have hx : isOwnerHeader x = false := h x (by simp)
    rw [List.cons_append]
    rw [show firstOwnerIdx? (x :: (rest ++ b)) =
      (firstOwnerIdx? (rest ++ b)).map (· + 1) from by
        simp only [firstOwnerIdx?, hx]
        rw [if_neg (by decide : ¬(false = true))]]
    rw [ih b (fun l hl => h l (by simp [hl]))]
    cases firstOwnerIdx? b with
    | none => rfl
    | some v =>
      simp only [Option.map_some', List.length_cons, Option.some.injEq]
      omega

theorem firstKeyIdx?_none_iff (k : Chars) :
    ∀ ls : List Chars,
      firstKeyIdx? k ls = none ↔ ∀ l ∈ ls, Setup.parsedKey l ≠ some k := by
  intro ls
  induction ls with
  | nil => simp [firstKeyIdx?]
  | cons l rest ih =>
    by_cases hp : Setup.parsedKey l = some k
    · simp [firstKeyIdx?, hp]
    · simp only [firstKeyIdx?, if_neg hp]
      rw [Option.map_eq_none', ih]
      constructor
      · intro h x hx
        rcases List.mem_cons.mp hx with rfl | hx'
        · exact hp
        · exact h x hx'
      · intro h x hx
        exact h x (by simp [hx])

theorem firstKeyIdx?_build (k : Chars) :
    ∀ (ls : List Chars) (i : Nat), i < ls.length →
      Setup.parsedKey (ls.getD i []) = some k →
      (∀ j, j < i → Setup.parsedKey (ls.getD j []) ≠ some k) →
      firstKeyIdx? k ls = some i := by
  intro ls
  induction ls with
  | nil => intro i h; simp at h
  | cons l rest ih =>
    intro i hlen hp hmin
    cases i with
    | zero =>
      simp only [List.getD_cons_zero] at hp
      simp [firstKeyIdx?, hp]
    | succ i =>
      have hl : Setup.parsedKey l ≠ some k := by simpa using hmin 0 (by omega)
      simp only [firstKeyIdx?, if_neg hl]
      rw [ih i (by simpa using hlen) (by simpa using hp)
        (fun j hj => by simpa using hmin (j + 1) (by omega))]
      rfl

theorem firstKeyIdx?_append (k : Chars) :
    ∀ (a b : List Chars), (∀ l ∈ a, Setup.parsedKey l ≠ some k) →
      firstKeyIdx? k (a ++ b) = (firstKeyIdx? k b).map (· + a.length) := by
  intro a
  induction a with
  | nil => intro b _; simp [Option.map_id']
  | cons x rest ih =>
    intro b h
    have hx : Setup.parsedKey x ≠ some k := h x (by simp)
    rw [List.cons_append]
    simp only [firstKeyIdx?, if_neg hx]
    rw [ih b (fun l hl => h l (by simp [hl]))]
    cases firstKeyIdx? k b with
    | none => rfl
    | some v =>
      simp only [Option.map_some', List.length_cons, Option.some.injEq]
      omega

theorem boundaryOffset_append :
    ∀ (a b : List Chars), (∀ l ∈ a, isBoundary l = false) →
      boundaryOffset (a ++ b) = a.length + boundaryOffset b := by
  intro a
  induction a with
  | nil => intro b _; simp
  | cons x rest ih =>
    intro b h
    have hx : isBoundary x = false := h x (by simp)
    rw [List.cons_append]
    rw [show boundaryOffset (x :: (rest ++ b)) = boundaryOffset (rest ++ b) + 1 from by
      simp only [boundaryOffset, hx]
      rw [if_neg (by decide : ¬(false = true))]]
    rw [ih b (fun l hl => h l (by simp [hl]))]
    simp only [List.length_cons]
    omega

theorem boundaryOffset_all :
    ∀ ls : List Chars, (∀ l ∈ ls, isBoundary l = false) →
      boundaryOffset ls = ls.length := by
  intro ls
  induction ls with
  | nil => intro _; rfl
  | cons x rest ih =>
    intro h
    have hx : isBoundary x = false := h x (by simp)
    rw [show boundaryOffset (x :: rest) = boundaryOffset rest + 1 from by
      simp only [boundaryOffset, hx]
      rw [if_neg (by decide : ¬(false = true))]]
    rw [ih (fun l hl => h l (by simp [hl]))]
    rfl

theorem applySets_mem (values : Chars → Option Chars) (keyIdx : List (Chars × Nat)) :
    ∀ (ordered : List Chars) (blk : List Chars) (l : Chars),
      l ∈ applySets blk keyIdx values ordered →
      l ∈ blk ∨ ∃ key ∈ ordered, l = Setup.mkKVLine values key := by
  intro ordered
  induction ordered with
  | nil => intro blk l hl; exact Or.inl hl
  | cons key rest ih =>
    intro blk l hl
    cases hlk : Setup.lookupIdx key keyIdx with
    | some i =>
      simp only [applySets, List.foldl_cons, hlk] at hl
      rcases ih (blk.set i (Setup.mkKVLine values key)) l hl with h1 | ⟨key', hk', he⟩
      · rcases List.mem_or_eq_of_mem_set h1 with h2 | h2
        · exact Or.inl h2
        · exact Or.inr ⟨key, by simp, h2⟩
      · exact Or.inr ⟨key', by simp [hk'], he⟩
    | none =>
      simp only [applySets, List.foldl_cons, hlk] at hl
      rcases ih blk l hl with h1 | ⟨key', hk', he⟩
      · exact Or.inl h1
      · exact Or.inr ⟨key', by simp [hk'], he⟩

theorem applySets_getD_cases (values : Chars → Option Chars)
    (keyIdx : List (Chars × Nat)) (ordered : List Chars) (blk : List Chars)
    (hmem : ∀ p ∈ keyIdx, p.2 < blk.length ∧
      Setup.parsedKey (blk.getD p.2 []) = some p.1) (j : Nat) :
    (applySets blk keyIdx values ordered).getD j [] = blk.getD j [] ∨
    ∃ key ∈ ordered, Setup.lookupIdx key keyIdx = some j ∧
      (applySets blk keyIdx values ordered).getD j [] = Setup.mkKVLine values key := by
  by_cases hex : ∃ key ∈ ordered, Setup.lookupIdx key keyIdx = some j
  · obtain ⟨key, hko, hkj⟩ := hex
    have hjlen : j < blk.length := (hmem (key, j) (lookupIdx_mem key keyIdx j hkj)).1
    have huniq : ∀ key' ∈ ordered, Setup.lookupIdx key' keyIdx = some j → key' = key := by
      intro key' _ hkj'
      have h1 := (hmem (key', j) (lookupIdx_mem key' keyIdx j hkj')).2
      have h2 := (hmem (key, j) (lookupIdx_mem key keyIdx j hkj)).2
      rw [h1] at h2
      exact Option.some_inj.mp h2.symm |>.symm
    exact Or.inr ⟨key, hko, hkj,
      applySets_getD_eq values keyIdx j key ordered blk hko hkj hjlen huniq⟩
  · left
    refine applySets_getD_of_ne values keyIdx j ordered blk ?_
    intro key hko hkj
    exact hex ⟨key, hko, hkj⟩

theorem applySets_noop (values : Chars → Option Chars)
    (keyIdx : List (Chars × Nat)) :
    ∀ (ordered : List Chars) (blk : List Chars),
      (∀ key ∈ ordered, ∃ j, Setup.lookupIdx key keyIdx = some j ∧
        j < blk.length ∧ blk.getD j [] = Setup.mkKVLine values key) →
      applySets blk keyIdx values ordered = blk := by
  intro ordered
  induction ordered with
  | nil => intro blk _; rfl
  | cons key rest ih =>
    intro blk h
    obtain ⟨j, hlk, hjlen, hjget⟩ := h key (by simp)
    simp only [applySets, List.foldl_cons, hlk]
    rw [set_getD_self blk j _ hjlen hjget]
    exact ih blk (fun key' hk' => h key' (by simp [hk']))

theorem mapped_first (values : Chars → Option Chars) (k : Chars) :
    ∀ ks : List Chars, k ∈ ks → (∀ key' ∈ ks, wfKeyB key' = true) →
      ∃ m, firstKeyIdx? k (ks.map (Setup.mkKVLine values)) = some m ∧
        (ks.map (Setup.mkKVLine values)).getD m [] = Setup.mkKVLine values k ∧
        m < ks.length := by
  intro ks
  induction ks with
  | nil => intro hk; simp at hk
  | cons key'' ks' ih =>
    intro hk hwf
    by_cases hkk : key'' = k
    · subst hkk
      refine ⟨0, ?_, rfl, by simp⟩
      have hp : Setup.parsedKey (Setup.mkKVLine values key'') = some key'' :=
        parsedKey_mkKV values key'' (hwf key'' (by simp))
      simp [firstKeyIdx?, hp]
    · have hkks' : k ∈ ks' := by
        rcases List.mem_cons.mp hk with h | h
        · exact absurd h.symm hkk
        · exact h
      obtain ⟨m, hm1, hm2, hm3⟩ := ih hkks' (fun key' hk' => hwf key' (by simp [hk']))
      have hp : Setup.parsedKey (Setup.mkKVLine values key'') = some key'' :=
        parsedKey_mkKV values key'' (hwf key'' (by simp))
      have hne : Setup.parsedKey (Setup.mkKVLine values key'') ≠ some k := by
        rw [hp]
        intro hx
        exact hkk (Option.some_inj.mp hx)
      refine ⟨m + 1, ?_, by simpa using hm2, by simpa using Nat.succ_lt_succ hm3⟩
      simp only [List.map_cons, firstKeyIdx?, if_neg hne, hm1]
      rfl

theorem lookup_buildKeyIndices (values : Chars → Option Chars) (B : List Chars)
    (key : Chars) (hv : (values key).isSome = true) :
    Setup.lookupIdx key (Setup.buildKeyIndices B values) = firstKeyIdx? key B := by
  rw [Setup.buildKeyIndices, buildFrom_lookup values key B 0 []]
  simp only [Setup.lookupIdx, hv, if_pos rfl]
  cases firstKeyIdx? key B <;> simp

theorem secondPass_noop (values : Chars → Option Chars) (ordered : List Chars)
    (hvals : ∀ key ∈ ordered, (values key).isSome = true) (B2 : List Chars)
    (hfirst : ∀ key ∈ ordered, ∃ j, firstKeyIdx? key B2 = some j ∧
      j < B2.length ∧ B2.getD j [] = Setup.mkKVLine values key) :
    Setup.applyOrderedKeys B2 (Setup.buildKeyIndices B2 values) values ordered = B2 := by
  have hlk : ∀ key ∈ ordered, ∃ j,
      Setup.lookupIdx key (Setup.buildKeyIndices B2 values) = some j ∧
      j < B2.length ∧ B2.getD j [] = Setup.mkKVLine values key := by
    intro key hk
    obtain ⟨j, h1, h2, h3⟩ := hfirst key hk
    exact ⟨j, by rw [lookup_buildKeyIndices values B2 key (hvals key hk), h1], h2, h3⟩
  have hbound : ∀ p ∈ Setup.buildKeyIndices B2 values, p.2 < B2.length := by
    intro p hp
    rcases buildFrom_mem values B2 0 [] p
      (by rwa [Setup.buildKeyIndices] at hp) with hin | ⟨-, h2, -, -⟩
    · exact absurd hin (by simp)
    · simpa using h2
  have hdecomp := apply_decomp values (Setup.buildKeyIndices B2 values)
    ordered B2 [] hbound
  rw [List.append_nil] at hdecomp
  rw [hdecomp]
  have happs : appendsOf (Setup.buildKeyIndices B2 values) values ordered = [] := by
    unfold appendsOf
    rw [List.filter_eq_nil_iff.mpr]
    · rfl
    · intro key hk
      obtain ⟨j, h1, -, -⟩ := hlk key hk
      simp [h1]
  rw [happs, applySets_noop values _ ordered B2 hlk]
  simp

theorem applySets_mem_lookup (values : Chars → Option Chars)
    (keyIdx : List (Chars × Nat)) :
    ∀ (ordered : List Chars) (blk : List Chars) (l : Chars),
      l ∈ applySets blk keyIdx values ordered →
      l ∈ blk ∨ ∃ key ∈ ordered, (Setup.lookupIdx key keyIdx).isSome = true ∧
        l = Setup.mkKVLine values key := by
  intro ordered
  induction ordered with
  | nil => intro blk l hl; exact Or.inl hl
  | cons key rest ih =>
    intro blk l hl
    cases hlk : Setup.lookupIdx key keyIdx with
    | some i =>
      simp only [applySets, List.foldl_cons, hlk] at hl
      rcases ih (blk.set i (Setup.mkKVLine values key)) l hl with h1 | ⟨key', hk', hs', he⟩
      · rcases List.mem_or_eq_of_mem_set h1 with h2 | h2
        · exact Or.inl h2
        · exact Or.inr ⟨key, by simp, by simp [hlk], h2⟩
      · exact Or.inr ⟨key', by simp [hk'], hs', he⟩
    | none =>
      simp only [applySets, List.foldl_cons, hlk] at hl
      rcases ih blk l hl with h1 | ⟨key', hk', hs', he⟩
      · exact Or.inl h1
      · exact Or.inr ⟨key', by simp [hk'], hs', he⟩

theorem firstPass_first (values : Chars → Option Chars) (ordered : List Chars)
    (hvals : ∀ key ∈ ordered, (values key).isSome = true)
    (hwfk : ∀ key ∈ ordered, wfKeyB key = true) (B : List Chars) :
    ∀ key ∈ ordered, ∃ j,
      firstKeyIdx? key (Setup.applyOrderedKeys B (Setup.buildKeyIndices B values)
        values ordered) = some j ∧
      j < (Setup.applyOrderedKeys B (Setup.buildKeyIndices B values)
        values ordered).length ∧
      (Setup.applyOrderedKeys B (Setup.buildKeyIndices B values)
        values ordered).getD j [] = Setup.mkKVLine values key := by
  have hKImem : ∀ p ∈ Setup.buildKeyIndices B values, p.2 < B.length ∧
      Setup.parsedKey (B.getD p.2 []) = some p.1 := by
    intro p hp
    rcases buildFrom_mem values B 0 [] p
      (by rwa [Setup.buildKeyIndices] at hp) with hin | ⟨-, h2, h3, -⟩
    · exact absurd hin (by simp)
    · exact ⟨by simpa using h2, by simpa using h3⟩
  have hbound : ∀ p ∈ Setup.buildKeyIndices B values, p.2 < B.length :=
    fun p hp => (hKImem p hp).1
  have hdecomp := apply_decomp values (Setup.buildKeyIndices B values) ordered B [] hbound
  rw [List.append_nil, List.nil_append] at hdecomp
  have hcorelen : (applySets B (Setup.buildKeyIndices B values) values ordered).length
      = B.length := applySets_length values _ ordered B
  intro key hk
  have hlk : Setup.lookupIdx key (Setup.buildKeyIndices B values) = firstKeyIdx? key B :=
    lookup_buildKeyIndices values B key (hvals key hk)
  cases hfB : firstKeyIdx? key B with
  | some i =>
    obtain ⟨hiB, hip, himin⟩ := firstKeyIdx?_spec key B i hfB
    have huniq : ∀ key' ∈ ordered,
        Setup.lookupIdx key' (Setup.buildKeyIndices B values) = some i → key' = key := by
      intro key' _ h'
      have h1 := (hKImem (key', i) (lookupIdx_mem key' _ i h')).2
      rw [hip] at h1
      exact (Option.some_inj.mp h1).symm
    have hcoreget : (applySets B (Setup.buildKeyIndices B values) values ordered).getD i []
        = Setup.mkKVLine values key :=
      applySets_getD_eq values _ i key ordered B hk (by rw [hlk]; exact hfB) hiB huniq
    refine ⟨i, ?_, ?_, ?_⟩
    · rw [hdecomp]
      refine firstKeyIdx?_build key _ i ?_ ?_ ?_
      · rw [List.length_append, hcorelen]; omega
      · rw [getD_append_left _ _ i (by omega : i < _), hcoreget]
        exact parsedKey_mkKV values key (hwfk key hk)
      · intro j hj hpj
        rw [getD_append_left _ _ j (by omega : j < _)] at hpj
        rcases applySets_getD_cases values (Setup.buildKeyIndices B values)
          ordered B hKImem j with hsame | ⟨key', hk', hlk', hget'⟩
        · rw [hsame] at hpj
          exact himin j hj hpj
        · rw [hget', parsedKey_mkKV values key' (hwfk key' hk')] at hpj
          obtain rfl : key' = key := Option.some_inj.mp hpj
          rw [hlk, hfB] at hlk'
          obtain rfl : i = j := Option.some_inj.mp hlk'
          omega
    · rw [hdecomp, List.length_append, hcorelen]; omega
    · rw [hdecomp, getD_append_left _ _ i (by omega : i < _)]
      exact hcoreget
  | none =>
    have hnone : ∀ l ∈ B, Setup.parsedKey l ≠ some key :=
      (firstKeyIdx?_none_iff key B).mp hfB
    have hlkKI : Setup.lookupIdx key (Setup.buildKeyIndices B values) = none := by
      rw [hlk]; exact hfB
    have hkf : key ∈ ordered.filter
        (fun key => (Setup.lookupIdx key (Setup.buildKeyIndices B values)).isNone) :=
      List.mem_filter.mpr ⟨hk, by simp [hlkKI]⟩
    obtain ⟨m, hm1, hm2, hm3⟩ := mapped_first values key _ hkf
      (fun key' hk' => hwfk key' (List.mem_of_mem_filter hk'))
    have hcorefree : ∀ l ∈ applySets B (Setup.buildKeyIndices B values) values ordered,
        Setup.parsedKey l ≠ some key := by
      intro l hl
      rcases applySets_mem_lookup values _ ordered B l hl with hin | ⟨key', hk', hs', rfl⟩
      · exact hnone l hin
      · rw [parsedKey_mkKV values key' (hwfk key' hk')]
        intro hx
        obtain rfl : key' = key := Option.some_inj.mp hx
        rw [hlkKI] at hs'
        exact absurd hs' (by simp)
    refine ⟨m + (applySets B (Setup.buildKeyIndices B values) values ordered).length,
      ?_, ?_, ?_⟩
    · rw [hdecomp, firstKeyIdx?_append key _ _ hcorefree]
      rw [show appendsOf (Setup.buildKeyIndices B values) values ordered =
        (ordered.filter (fun key =>
          (Setup.lookupIdx key (Setup.buildKeyIndices B values)).isNone)).map
          (Setup.mkKVLine values) from rfl, hm1]
      rfl
    · rw [hdecomp, List.length_append]
      have happlen : (appendsOf (Setup.buildKeyIndices B values) values ordered).length =
          (ordered.filter (fun key =>
            (Setup.lookupIdx key (Setup.buildKeyIndices B values)).isNone)).length := by
        rw [show appendsOf (Setup.buildKeyIndices B values) values ordered =
          (ordered.filter (fun key =>
            (Setup.lookupIdx key (Setup.buildKeyIndices B values)).isNone)).map
            (Setup.mkKVLine values) from rfl, List.length_map]
      omega
    · rw [hdecomp, Nat.add_comm m _, getD_append_right]
      exact hm2

theorem applyOrdered_mem (values : Chars → Option Chars)
    (keyIdx : List (Chars × Nat)) :
    ∀ (ordered : List Chars) (blk : List Chars) (l : Chars),
      l ∈ Setup.applyOrderedKeys blk keyIdx values ordered →
      l ∈ blk ∨ ∃ key ∈ ordered, l = Setup.mkKVLine values key := by
  intro ordered
  induction ordered with
  | nil => intro blk l hl; exact Or.inl hl
  | cons key rest ih =>
    intro blk l hl
    cases hlk : Setup.lookupIdx key keyIdx with
    | some i =>
      simp only [Setup.applyOrderedKeys, List.foldl_cons, hlk] at hl
      rcases ih (blk.set i (Setup.mkKVLine values key)) l hl with h1 | ⟨key', hk', he⟩
      · rcases List.mem_or_eq_of_mem_set h1 with h2 | h2
        · exact Or.inl h2
        · exact Or.inr ⟨key, by simp, h2⟩
      · exact Or.inr ⟨key', by simp [hk'], he⟩
    | none =>
      simp only [Setup.applyOrderedKeys, List.foldl_cons, hlk] at hl
      rcases ih (blk ++ [Setup.mkKVLine values key]) l hl with h1 | ⟨key', hk', he⟩
      · rcases List.mem_append.mp h1 with h2 | h2
        · exact Or.inl h2
        · exact Or.inr ⟨key, by simp, by simpa using h2⟩
      · exact Or.inr ⟨key', by simp [hk'], he⟩

theorem update_fixed (values : Chars → Option Chars) (ordered : List Chars)
    (hvals : ∀ key ∈ ordered, (values key).isSome = true)
    (pre : List Chars) (hpre : ∀ l ∈ pre, isOwnerHeader l = false)
    (hd : Chars) (hhd : isOwnerHeader hd = true)
    (B2 : List Chars) (hB2nb : ∀ l ∈ B2, isBoundary l = false)
    (suf : List Chars) (hsuf : suf = [] ∨ isBoundary (suf.headD []) = true)
    (hfirst : ∀ key ∈ ordered, ∃ j, firstKeyIdx? key B2 = some j ∧
      j < B2.length ∧ B2.getD j [] = Setup.mkKVLine values key)
    (hnb : ∀ l ∈ pre ++ (hd :: (B2 ++ suf)), ∀ ch ∈ l, isLineBreak ch = false) :
    Setup.update_mc_publish_block (joinNL (pre ++ (hd :: (B2 ++ suf)))) values ordered
      = some (joinNL (pre ++ (hd :: (B2 ++ suf))), false) := by
  have hgate : ¬(ordered.any (fun key => (values key).isNone) = true) := by
    intro hx
    obtain ⟨key, hk, hn⟩ := List.any_eq_true.mp hx
    have hv := hvals key hk
    rw [Option.isNone_iff_eq_none.mp hn] at hv
    exact absurd hv (by simp)
  have hNLne : pre ++ (hd :: (B2 ++ suf)) ≠ [] := by simp
  have hNL : pySL (joinNL (pre ++ (hd :: (B2 ++ suf)))) = pre ++ (hd :: (B2 ++ suf)) := by
    rw [joinNL_eq_joinLines _ hNLne]
    exact joinLines_roundtrip _ hnb
  have hown : firstOwnerIdx? (pre ++ (hd :: (B2 ++ suf))) = some pre.length := by
    rw [firstOwnerIdx?_append pre _ hpre,
      show firstOwnerIdx? (hd :: (B2 ++ suf)) = some 0 from by simp [firstOwnerIdx?, hhd]]
    simp
  have hdrop1 : (pre ++ (hd :: (B2 ++ suf))).drop (pre.length + 1) = B2 ++ suf := by
    rw [show pre ++ (hd :: (B2 ++ suf)) = (pre ++ [hd]) ++ (B2 ++ suf) from by simp,
      show pre.length + 1 = (pre ++ [hd]).length from by simp]
    exact List.drop_left _ _
  have hbo : boundaryOffset (B2 ++ suf) = B2.length := by
    rw [boundaryOffset_append B2 suf hB2nb]
    rcases hsuf with rfl | hb
    · rfl
    · cases suf with
      | nil => rfl
      | cons x xs =>
        rw [show boundaryOffset (x :: xs) = 0 from by
          simp only [boundaryOffset]
          rw [if_pos (by simpa using hb)]]
        omega
  have htake1 : (pre ++ (hd :: (B2 ++ suf))).take (pre.length + 1) = pre ++ [hd] := by
    rw [show pre ++ (hd :: (B2 ++ suf)) = (pre ++ [hd]) ++ (B2 ++ suf) from by simp,
      show pre.length + 1 = (pre ++ [hd]).length from by simp]
    exact List.take_left _ _
  have hdrop2 : (pre ++ (hd :: (B2 ++ suf))).drop (pre.length + 1 + B2.length) = suf := by
    rw [show pre ++ (hd :: (B2 ++ suf)) = ((pre ++ [hd]) ++ B2) ++ suf from by simp,
      show pre.length + 1 + B2.length = ((pre ++ [hd]) ++ B2).length from by
        simp
        omega]
    exact List.drop_left _ _
  have hnoop : Setup.applyOrderedKeys B2 (Setup.buildKeyIndices B2 values)
      values ordered = B2 := secondPass_noop values ordered hvals B2 hfirst
  rw [Setup.update_mc_publish_block, if_neg hgate]
  simp only [hNL, hown, hdrop1, hbo, Nat.add_sub_cancel_left, List.take_left,
    htake1, hdrop2, hnoop]
  rw [show (pre ++ [hd]) ++ B2 ++ suf = pre ++ (hd :: (B2 ++ suf)) from by simp]
  simp

/-- C3 (amended): the rewrite is idempotent for well-formed inputs: when every
ordered key is non-empty, free of surrounding whitespace, `#`, `=`, a leading
`[` and line breaks, and every desired value exists and is line-break-free,
then re-applying `update_mc_publish_block` with the same values and key order
to the first application's output returns that output text unchanged and
reports `False` (no change), so the caller skips the write.  Unrestricted,
the claim fails — see the counterexample. -/
theorem c3_theorem (text : Chars) (values : Chars → Option Chars)
    (ordered : List Chars) (o : Chars) (c : Bool)
    (hwf : ∀ key ∈ ordered, wfKeyB key = true ∧
      ∃ v, values key = some v ∧ ∀ ch ∈ v, isLineBreak ch = false)
    (hupd : Setup.update_mc_publish_block text values ordered = some (o, c)) :
    Setup.update_mc_publish_block o values ordered = some (o, false) := by
  have hvals : ∀ key ∈ ordered, (values key).isSome = true := by
    intro key hk
    obtain ⟨-, v, hv, -⟩ := hwf key hk
    simp [hv]
  have hwfk : ∀ key ∈ ordered, wfKeyB key = true := fun key hk => (hwf key hk).1
  have hvnb : ∀ key ∈ ordered, ∀ ch ∈ (values key).getD [], isLineBreak ch = false := by
    intro key hk
    obtain ⟨-, v, hv, hnbv⟩ := hwf key hk
    rw [hv]
    exact hnbv
  rw [Setup.update_mc_publish_block] at hupd
  split at hupd
  · exact absurd hupd (by simp)
  · cases hsf : firstOwnerIdx? (pySL text) with
    | some s =>
      simp only [hsf, Option.some.injEq, Prod.mk.injEq] at hupd
      obtain ⟨ho, -⟩ := hupd
      set L := pySL text with hL
      set e := s + 1 + boundaryOffset (L.drop (s + 1)) with he
      set B := (L.drop (s + 1)).take (e - (s + 1)) with hB
      set blk := Setup.applyOrderedKeys B (Setup.buildKeyIndices B values)
        values ordered with hblk
      obtain ⟨hsl, hsown, hsmin⟩ := firstOwnerIdx?_spec L s hsf
      have hLnb : ∀ l ∈ L, ∀ ch ∈ l, isLineBreak ch = false := by
        rw [hL]
        exact pySL_no_break text
      have hpre : ∀ l ∈ L.take s, isOwnerHeader l = false :=
        mem_take_pred isOwnerHeader L s hsmin
      have hBsubL : ∀ l ∈ B, l ∈ L := by
        intro l hl
        rw [hB] at hl
        exact List.mem_of_mem_drop (List.mem_of_mem_take hl)
      have hBnb : ∀ l ∈ B, isBoundary l = false := by
        intro l hl
        have hoff : e - (s + 1) = boundaryOffset (L.drop (s + 1)) := by omega
        rw [hB, hoff] at hl
        exact mem_take_pred isBoundary (L.drop (s + 1)) _
          (boundaryOffset_before (L.drop (s + 1))) l hl
      have hblknb : ∀ l ∈ blk, isBoundary l = false := by
        intro l hl
        rw [hblk] at hl
        rcases applyOrdered_mem values _ ordered B l hl with hin | ⟨key, hk, rfl⟩
        · exact hBnb l hin
        · exact (mkKV_not_header values key (hwfk key hk)).2.2
      have hblkmem : ∀ l ∈ blk,
          l ∈ L ∨ ∃ key ∈ ordered, l = Setup.mkKVLine values key := by
        intro l hl
        rw [hblk] at hl
        rcases applyOrdered_mem values _ ordered B l hl with hin | hkey
        · exact Or.inl (hBsubL l hin)
        · exact Or.inr hkey
      have hsuf : L.drop e = [] ∨ isBoundary ((L.drop e).headD []) = true := by
        by_cases he' : e < L.length
        · right
          have hoff : boundaryOffset (L.drop (s + 1)) < (L.drop (s + 1)).length := by
            rw [List.length_drop]
            omega
          have hbd := boundaryOffset_at (L.drop (s + 1)) hoff
          rw [getD_drop] at hbd
          have hidx : s + 1 + boundaryOffset (L.drop (s + 1)) = e := by omega
          rw [hidx] at hbd
          cases hdl : L.drop e with
          | nil =>
            have hle : L.length ≤ e := List.drop_eq_nil_iff_le.mp hdl
            omega
          | cons x xs =>
            have hx : x = L.getD e [] := by
              have h0 : (L.drop e).getD 0 [] = L.getD (e + 0) [] := getD_drop L e 0
              rw [hdl] at h0
              simpa using h0
            rw [List.headD_cons, hx]
            exact hbd
        · left
          exact List.drop_eq_nil_of_le (by omega)
      have hfirst := firstPass_first values ordered hvals hwfk B
      rw [← hblk] at hfirst
      have hnbNL : ∀ l ∈ L.take s ++ (L.getD s [] :: (blk ++ L.drop e)),
          ∀ ch ∈ l, isLineBreak ch = false := by
        intro l hl
        rcases List.mem_append.mp hl with h1 | h2
        · exact hLnb l (List.mem_of_mem_take h1)
        · rcases List.mem_cons.mp h2 with rfl | h3
          · exact hLnb _ (getD_mem L s hsl)
          · rcases List.mem_append.mp h3 with h4 | h5
            · rcases hblkmem l h4 with h6 | ⟨key, hk, rfl⟩
              · exact hLnb l h6
              · exact mkKV_no_break values key (hwfk key hk) (hvnb key hk)
            · exact hLnb l (List.mem_of_mem_drop h5)
      have hshape : L.take (s + 1) ++ blk ++ L.drop e =
          L.take s ++ (L.getD s [] :: (blk ++ L.drop e)) := by
        rw [take_succ_getD L s hsl]
        simp
      rw [← ho, hshape]
      exact update_fixed values ordered hvals (L.take s) hpre (L.getD s []) hsown
        blk hblknb (L.drop e) hsuf hfirst hnbNL
    | none =>
      simp only [hsf, Option.some.injEq, Prod.mk.injEq] at hupd
      obtain ⟨ho, -⟩ := hupd
      set L := pySL text with hL
      have hLown : ∀ l ∈ L, isOwnerHeader l = false :=
        (firstOwnerIdx?_none_iff L).mp hsf
      have hLnb : ∀ l ∈ L, ∀ ch ∈ l, isLineBreak ch = false := by
        rw [hL]
        exact pySL_no_break text
      have main : ∀ base : List Chars,
          base = L ++ [[]] ∨ base = L →
          joinNL (base ++ Setup.build_mc_publish_block values ordered) = o →
          Setup.update_mc_publish_block o values ordered = some (o, false) := by
        intro base hb hoo
        have hbown : ∀ l ∈ base, isOwnerHeader l = false := by
          rcases hb with rfl | rfl
          · intro l hl
            rcases List.mem_append.mp hl with h1 | h2
            · exact hLown l h1
            · obtain rfl : l = [] := by simpa using h2
              decide
          · exact hLown
        have hbnb : ∀ l ∈ base, ∀ ch ∈ l, isLineBreak ch = false := by
          rcases hb with rfl | rfl
          · intro l hl
            rcases List.mem_append.mp hl with h1 | h2
            · exact hLnb l h1
            · obtain rfl : l = [] := by simpa using h2
              intro ch hch
              simp at hch
          · exact hLnb
        have hkvnb : ∀ l ∈ ordered.map (Setup.mkKVLine values),
            ∀ ch ∈ l, isLineBreak ch = false := by
          intro l hl
          obtain ⟨key, hk, rfl⟩ := List.mem_map.mp hl
          exact mkKV_no_break values key (hwfk key hk) (hvnb key hk)
        have hkvbd : ∀ l ∈ ordered.map (Setup.mkKVLine values), isBoundary l = false := by
          intro l hl
          obtain ⟨key, hk, rfl⟩ := List.mem_map.mp hl
          exact (mkKV_not_header values key (hwfk key hk)).2.2
        have hfirst : ∀ key ∈ ordered, ∃ j,
            firstKeyIdx? key (ordered.map (Setup.mkKVLine values)) = some j ∧
            j < (ordered.map (Setup.mkKVLine values)).length ∧
            (ordered.map (Setup.mkKVLine values)).getD j [] =
              Setup.mkKVLine values key := by
          intro key hk
          obtain ⟨m, hm1, hm2, hm3⟩ := mapped_first values key ordered hk hwfk
          exact ⟨m, hm1, by simpa using hm3, hm2⟩
        have hnbNL : ∀ l ∈ base ++ ("[mc-publish]".data ::
            (ordered.map (Setup.mkKVLine values) ++ ([] : List Chars))),
            ∀ ch ∈ l, isLineBreak ch = false := by
          intro l hl
          rcases List.mem_append.mp hl with h1 | h2
          · exact hbnb l h1
          · rcases List.mem_cons.mp h2 with rfl | h3
            · decide
            · rw [List.append_nil] at h3
              exact hkvnb l h3
        have hshape : base ++ Setup.build_mc_publish_block values ordered =
            base ++ ("[mc-publish]".data ::
              (ordered.map (Setup.mkKVLine values) ++ ([] : List Chars))) := by
          rw [Setup.build_mc_publish_block]
          simp
        rw [← hoo, hshape]
        exact update_fixed values ordered hvals base hbown "[mc-publish]".data
          (by decide) (ordered.map (Setup.mkKVLine values)) hkvbd [] (Or.inl rfl)
          hfirst hnbNL
      by_cases hcond : !L.isEmpty ∧ !(pyStrip (L.getLastD [])).isEmpty
      · exact main (L ++ [[]]) (Or.inl rfl) (by rw [if_pos hcond] at ho; exact ho)
      · exact main L (Or.inr rfl) (by rw [if_neg hcond] at ho; exact ho)

/-- C3 counterexample: with desired value `a\nb` (containing a line break) for
key `k`, the first rewrite of `[mc-publish]\n` yields
`[mc-publish]\nk = "a\nb"\n` (changed), and the second rewrite of that output
with the same values and key order yields the different text
`[mc-publish]\nk = "a\nb"\nb"\n` and again reports `True` — the claim's
unrestricted idempotence and its no-op report both fail at this input. -/
theorem c3_counterexample :
    Setup.update_mc_publish_block "[mc-publish]\n".data valsNewline ["k".data] =
      some ("[mc-publish]\nk = \"a\nb\"\n".data, true) ∧
    Setup.update_mc_publish_block "[mc-publish]\nk = \"a\nb\"\n".data valsNewline
      ["k".data] =
      some ("[mc-publish]\nk = \"a\nb\"\nb\"\n".data, true) ∧
    "[mc-publish]\nk = \"a\nb\"\nb\"\n".data ≠ "[mc-publish]\nk = \"a\nb\"\n".data := by
  refine ⟨rfl, rfl, by decide⟩

/-- C3 witness: the amended idempotence theorem applied at the concrete
document `docSimple` with desired value `x` for key `modrinth`: the first
rewrite yields `[mc-publish]\nmodrinth = "x"\n[other]\nx = 1\n`, and the
second rewrite returns the same text with the `False` flag. -/
theorem c3_witness :
    Setup.update_mc_publish_block
      "[mc-publish]\nmodrinth = \"x\"\n[other]\nx = 1\n".data valsModrinth
      ["modrinth".data] =
      some ("[mc-publish]\nmodrinth = \"x\"\n[other]\nx = 1\n".data, false) :=
  c3_theorem docSimple valsModrinth ["modrinth".data]
    "[mc-publish]\nmodrinth = \"x\"\n[other]\nx = 1\n".data true
    (by
      intro key hk
      obtain rfl : key = "modrinth".data := by simpa using hk
      exact ⟨by decide, "x".data, rfl, by decide⟩)
    rfl
